import Mathlib

/-!
# Structural exact-match comparator of `@esoh/ts-utils`

A shallow embedding of the type-level comparator in `src/ts-assertions.ts`
(`NoExtraProps`, `IsExtends`, `IfExtraProps`, `IfExtendsWithoutExtraProps`,
`tsAssertExtendsExact`) over the shape model of the specification
(primitives, object shapes with optional fields, homogeneous arrays,
unions), together with the `createError` helper of `src/assertions.ts`.

The TypeScript source decides matters with the host type checker; the
embedding replays the same decisions on explicit shape values:

* `NoExtraProps<A, E>` evaluates to the type `0`, `1`, or `never`
  (an empty union).  The embedding represents that outcome by the
  three-valued type `TV` (`zero`, `one`, `nev`).
* Conditional-type distribution over a union corresponds to folding the
  per-alternative outcomes with the union semantics of TypeScript
  (`never` vanishes inside a union), followed by the `ZeroIfHasZero` /
  `OneIfHasOne` collapses of the source.
* Indexing `T[K]` on an optional property yields `T[K] | undefined` in
  TypeScript; the embedding threads that extra `undefined` alternative
  through the Boolean flag `uE` instead of rebuilding a union node.
-/

/-- Literal values carried by `literal(value)` primitive kinds. -/
inductive LitVal where
  | num (n : Int)
  | str (s : String)
  | boolVal (b : Bool)
deriving DecidableEq, Repr

/-- Primitive shape kinds of the shape model (spec §3): the base kinds,
an `other-opaque` nominal marker, and literal kinds. -/
inductive Prim where
  | string
  | number
  | boolean
  | null
  | undef
  | symbol
  | bigint
  | func
  | otherRef (id : Nat)
  | lit (v : LitVal)
deriving DecidableEq, Repr

/-- The base kind of a literal value (`3000` is a `number`, etc.). -/
def litBase : LitVal → Prim
  | .num _ => .number
  | .str _ => .string
  | .boolVal _ => .boolean

/-- Leaf assignability between primitive kinds: literals match identical
literals, a literal matches the non-literal kind of its base type, and
non-literal kinds (including opaque markers) match only themselves.
This is the `ActualT extends ExpectedT` leaf test of the source,
restricted to the primitive vocabulary of the shape model. -/
def leafExtends (p q : Prim) : Bool :=
  match p, q with
  | .lit v, .lit w => v = w
  | .lit v, q => litBase v = q
  | _, .lit _ => false
  | p, q => p = q

/-- The value of the type `NoExtraProps<A, E>`: the literal type `0`, the
literal type `1`, or `never` (the empty union). -/
inductive TV where
  | zero
  | one
  | nev
deriving DecidableEq, Repr

/-- A shape node (spec §3): primitive, object (field name, field shape,
optional flag), homogeneous array, or union of alternatives. -/
inductive Shape where
  | prim (p : Prim)
  | obj (fields : List (String × Shape × Bool))
  | arr (elem : Shape)
  | union (alternatives : List Shape)
deriving Repr

/-- Does an object shape declare a field named `k`? (`keyof` membership). -/
def hasField (fs : List (String × Shape × Bool)) (k : String) : Bool :=
  fs.any (fun f => f.1 = k)

/-- Look up the entry of field `k` (shape and optional flag). -/
def lookupField (fs : List (String × Shape × Bool)) (k : String) :
    Option (Shape × Bool) :=
  match fs with
  | [] => none
  | (k', s, o) :: rest => if k' = k then some (s, o) else lookupField rest k

theorem sizeOf_lookupField {fs : List (String × Shape × Bool)} {k : String}
    {s : Shape} {o : Bool} (h : lookupField fs k = some (s, o)) :
    sizeOf s < sizeOf fs := by
  induction fs with
  | nil => simp [lookupField] at h
  | cons f rest ih =>
    obtain ⟨k', s', o'⟩ := f
    simp only [lookupField] at h
    by_cases hk : k' = k
    · simp [hk] at h
      obtain ⟨hs, _⟩ := h
      subst hs
      simp
      omega
    · simp [hk] at h
      have := ih h
      simp
      omega

mutual
/-- The alternatives a TypeScript union distributes over: unions flatten
recursively, every other node is its own single alternative. -/
def alts : Shape → List Shape
  | .union l => altsList l
  | .prim p => [.prim p]
  | .obj fs => [.obj fs]
  | .arr e => [.arr e]
termination_by s => sizeOf s

/-- Flattened alternatives of a list of shapes. -/
def altsList : List Shape → List Shape
  | [] => []
  | s :: rest => alts s ++ altsList rest
termination_by l => sizeOf l
end

mutual
/-- `ActualT extends ExpectedTMaybeUnion` for a primitive `ActualT`:
true when some alternative of the expected side is a primitive the
candidate leaf is assignable to. -/
def primAssignable (p : Prim) (E : Shape) : Bool :=
  match E with
  | .union l => primAssignableList p l
  | .prim q => leafExtends p q
  | .obj _ => false
  | .arr _ => false
termination_by sizeOf E

/-- `primAssignable` distributed over a union's member list. -/
def primAssignableList (p : Prim) (l : List Shape) : Bool :=
  match l with
  | [] => false
  | e :: rest => primAssignable p e || primAssignableList p rest
termination_by sizeOf l
end

/-- Combine two `NoExtraProps` outcomes as the union observed by
`ZeroIfHasZero`: any `0` dominates, otherwise any `1` gives `1`,
`never` is the empty contribution. -/
def zeroComb : TV → TV → TV
  | .zero, _ => .zero
  | _, .zero => .zero
  | .one, _ => .one
  | _, .one => .one
  | .nev, .nev => .nev

/-- Combine two outcomes as the union observed by `OneIfHasOne`: any `1`
dominates, otherwise any `0` gives `0`, `never` is the empty contribution. -/
def oneComb : TV → TV → TV
  | .one, _ => .one
  | _, .one => .one
  | .zero, _ => .zero
  | _, .zero => .zero
  | .nev, .nev => .nev

/-- When the expected side carries an extra `undefined` alternative
(`uE = true`), an object-like candidate alternative gains one more
failing disjunct `0` inside `OneIfHasOne`; this turns `never` into `0`
and leaves `0`/`1` unchanged. -/
def undefAdjust (x : TV) (uE : Bool) : TV :=
  if uE && x = TV.nev then .zero else x

mutual
/-- `NoExtraProps<A, E ∪ (undefined if uE)>` of the source: the exact
structural match test.  Distributes over the candidate union and
collapses with `ZeroIfHasZero`. -/
def noExtraProps (A E : Shape) (uE : Bool) : TV :=
  match A with
  | .union l => noExtraPropsCands l E uE
  | .prim p =>
    -- `ActualT` is not an object: plain `ActualT extends ExpectedTMaybeUnion`.
    if primAssignable p E || (uE && p = Prim.undef) then .one else .zero
  | .obj fa => undefAdjust (noExtraPropsExp (.obj fa) E) uE
  | .arr ea => undefAdjust (noExtraPropsExp (.arr ea) E) uE
termination_by (sizeOf A + sizeOf E, 1)

/-- Distribution of `NoExtraProps` over the candidate union's members
(`ZeroIfHasZero` union semantics; an empty union is `never`). -/
def noExtraPropsCands (l : List Shape) (E : Shape) (uE : Bool) : TV :=
  match l with
  | [] => .nev
  | a :: rest => zeroComb (noExtraProps a E uE) (noExtraPropsCands rest E uE)
termination_by (sizeOf l + sizeOf E, 0)

/-- One object-like candidate alternative against the expected side,
distributing over the expected union (`OneIfHasOne` semantics). -/
def noExtraPropsExp (a E : Shape) : TV :=
  match E with
  | .union l => noExtraPropsExps a l
  | .prim _ => .zero -- `ExpectedT` does not extend `object` but `ActualT` does
  | .arr ee =>
    match a with
    | .arr ea => noExtraProps ea ee false -- element-wise recursion
    | _ => .zero -- object candidate never has exactly the keys of an array type
  | .obj fe =>
    match a with
    | .arr _ => .zero -- `ActualT` is an array but `ExpectedT` is not
    | .obj fa =>
      -- `Exclude<keyof ActualT, keyof ExpectedT> extends never`
      if fa.all (fun f => hasField fe f.1) then noExtraPropsFields fa fe
      else .zero -- ActualT has extra keys when compared to ExpectedT
    | _ => .zero -- unreachable: `a` is a non-union object-like alternative
termination_by (sizeOf a + sizeOf E, 0)

/-- `noExtraPropsExp` folded over the expected union's member list. -/
def noExtraPropsExps (a : Shape) (l : List Shape) : TV :=
  match l with
  | [] => .nev
  | e :: rest => oneComb (noExtraPropsExp a e) (noExtraPropsExps a rest)
termination_by (sizeOf a + sizeOf l, 0)

/-- The mapped type `{ [K in keyof ExpectedT]: ... }[keyof ExpectedT]`
followed by `ZeroIfHasZero ∘ OneIfNever`: iterate the expected fields;
any field outcome `0` gives `0`, otherwise `1` (also for zero fields,
and `never` field outcomes vanish inside the union). -/
def noExtraPropsFields (fa fe : List (String × Shape × Bool)) : TV :=
  match fe with
  | [] => .one
  | (k, se, oe) :: rest =>
    match h : lookupField fa k with
    | some (sa, oa) =>
      -- optionality reconciliation: candidate-optional vs expected-required
      -- is rejected, otherwise recurse into the property types
      -- (`ActualT[K]` / `ExpectedT[K]`, which add `undefined` when optional).
      if oa && !oe then .zero
      else
        match noExtraProps sa se oe with
        | .zero => .zero
        | _ => noExtraPropsFields fa rest
    | none =>
      -- expected-only key: acceptable only if optional on the expected side
      if oe then noExtraPropsFields fa rest else .zero
termination_by (sizeOf fa + sizeOf fe, 0)
decreasing_by
  all_goals simp_wf
  all_goals apply Prod.Lex.left
  all_goals try have hsz := sizeOf_lookupField h
  all_goals omega
end

mutual
/-- `CandidateT extends ExpectedT` of the source (`IsExtends`): plain
TypeScript assignability on the shape model, distributing universally
over the candidate union.  `uE = true` adds an `undefined` alternative
on the expected side (property access on an optional field). -/
def tsExtends (A E : Shape) (uE : Bool) : Bool :=
  match A with
  | .union l => tsExtendsCands l E uE
  | .prim p => primAssignable p E || (uE && p = Prim.undef)
  | .obj fa => tsExtendsSome (.obj fa) E
  | .arr ea => tsExtendsSome (.arr ea) E
termination_by (sizeOf A + sizeOf E, 1)

/-- Every member of a candidate union must be assignable. -/
def tsExtendsCands (l : List Shape) (E : Shape) (uE : Bool) : Bool :=
  match l with
  | [] => true
  | a :: rest => tsExtends a E uE && tsExtendsCands rest E uE
termination_by (sizeOf l + sizeOf E, 0)

/-- An object-like candidate is assignable to a union when it is
assignable to some member. -/
def tsExtendsSome (a E : Shape) : Bool :=
  match E with
  | .union l => tsExtendsList a l
  | .prim _ => false
  | .arr ee =>
    match a with
    | .arr ea => tsExtends ea ee false -- arrays are covariant
    | _ => false
  | .obj fe =>
    match a with
    | .obj fa => tsExtendsFields fa fe
    | _ => false
termination_by (sizeOf a + sizeOf E, 0)

/-- `tsExtendsSome` folded (existentially) over a union's member list. -/
def tsExtendsList (a : Shape) (l : List Shape) : Bool :=
  match l with
  | [] => false
  | e :: rest => tsExtendsSome a e || tsExtendsList a rest
termination_by (sizeOf a + sizeOf l, 0)

/-- Object assignability: every expected field must be satisfied; extra
candidate fields are allowed; an optional candidate field never
satisfies a required expected field. -/
def tsExtendsFields (fa fe : List (String × Shape × Bool)) : Bool :=
  match fe with
  | [] => true
  | (k, se, oe) :: rest =>
    (match h : lookupField fa k with
     | some (sa, oa) => (!oa || oe) && tsExtends sa se oe
     | none => oe) && tsExtendsFields fa rest
termination_by (sizeOf fa + sizeOf fe, 0)
decreasing_by
  all_goals simp_wf
  all_goals apply Prod.Lex.left
  all_goals try have hsz := sizeOf_lookupField h
  all_goals omega
end

/-- The three-valued verdict of the comparison (spec §4.2/§4.4). -/
inductive Verdict where
  | MATCH
  | REJECTED_NOT_SUBTYPE
  | REJECTED_EXTRA_PROPERTIES
deriving DecidableEq, Repr

/-- `IfExtendsWithoutExtraProps<CandidateT, ExpectedT, TrueT,
FalseBcNotExtendsT, FalseBcExtraPropsT>` of the source, the verdict
behind `tsAssertExtendsExact`: when `NoExtraProps` evaluates to `1` the
plain `extends` test decides `MATCH` versus `REJECTED_NOT_SUBTYPE`;
otherwise (value `0` or `never`) the verdict is
`REJECTED_EXTRA_PROPERTIES`. -/
def ifExtendsWithoutExtraProps (C E : Shape) : Verdict :=
  if noExtraProps C E false = TV.one then
    if tsExtends C E false then .MATCH else .REJECTED_NOT_SUBTYPE
  else .REJECTED_EXTRA_PROPERTIES

mutual
/-- Every union in the shape has at least one alternative (the shape
contains no uninhabited `never` component). -/
def nonEmptyUnions : Shape → Bool
  | .prim _ => true
  | .obj fs => nonEmptyUnionsFields fs
  | .arr e => nonEmptyUnions e
  | .union l => !l.isEmpty && nonEmptyUnionsList l
termination_by s => sizeOf s

/-- `nonEmptyUnions` over a union's member list. -/
def nonEmptyUnionsList : List Shape → Bool
  | [] => true
  | s :: rest => nonEmptyUnions s && nonEmptyUnionsList rest
termination_by l => sizeOf l

/-- `nonEmptyUnions` over an object's field list. -/
def nonEmptyUnionsFields : List (String × Shape × Bool) → Bool
  | [] => true
  | (_, s, _) :: rest => nonEmptyUnions s && nonEmptyUnionsFields rest
termination_by fs => sizeOf fs
end

mutual
/-- Field names are pairwise distinct in every object shape (the
field-name uniqueness invariant of spec §3), recursively. -/
def uniqueKeys : Shape → Bool
  | .prim _ => true
  | .obj fs => uniqueKeysFields fs
  | .arr e => uniqueKeys e
  | .union l => uniqueKeysList l
termination_by s => sizeOf s

/-- `uniqueKeys` over a union's member list. -/
def uniqueKeysList : List Shape → Bool
  | [] => true
  | s :: rest => uniqueKeys s && uniqueKeysList rest
termination_by l => sizeOf l

/-- `uniqueKeys` over an object's field list: the head key does not
recur, and the shapes themselves are recursively fine. -/
def uniqueKeysFields : List (String × Shape × Bool) → Bool
  | [] => true
  | (k, s, _) :: rest => !hasField rest k && uniqueKeys s && uniqueKeysFields rest
termination_by fs => sizeOf fs
end

/-- The top-level constructor kind of a shape. -/
inductive ShapeKind where
  | primK
  | objK
  | arrK
  | unionK
deriving DecidableEq, Repr

/-- The kind of a shape node. -/
def shapeKind : Shape → ShapeKind
  | .prim _ => .primK
  | .obj _ => .objK
  | .arr _ => .arrK
  | .union _ => .unionK

/-- Is a primitive kind a literal kind? -/
def isLit : Prim → Bool
  | .lit _ => true
  | _ => false

/-- Drop every field named `k` from a field list. -/
def removeField (fs : List (String × Shape × Bool)) (k : String) :
    List (String × Shape × Bool) :=
  fs.filter (fun f => !(f.1 = k : Bool))

/-- The requirement one expected field imposes in TypeScript assignability
(used to characterise `tsExtendsFields`). -/
def fieldSub (fa : List (String × Shape × Bool))
    (ent : String × Shape × Bool) : Bool :=
  match lookupField fa ent.1 with
  | some (sa, oa) => (!oa || ent.2.2) && tsExtends sa ent.2.1 ent.2.2
  | none => ent.2.2

/-- The outcome contributed by one expected field inside the mapped type
of `NoExtraProps` (used to characterise `noExtraPropsFields`). -/
def fieldVal (fa : List (String × Shape × Bool))
    (ent : String × Shape × Bool) : TV :=
  match lookupField fa ent.1 with
  | some (sa, oa) =>
    if oa && !ent.2.2 then .zero else noExtraProps sa ent.2.1 ent.2.2
  | none => if ent.2.2 then .one else .zero

/-- A host `Error` object.  `ident` stands for the object's identity (two
errors with the same message need not be the same object); `new Error`
allocation is modelled by `JsError.new`. -/
structure JsError where
  message : String
  ident : Nat
deriving DecidableEq, Repr

/-- `new Error(m)` of the host language. -/
def JsError.new (m : String) : JsError :=
  { message := m, ident := 0 }

/-- The argument of `createError`: a `string | Error | undefined` value. -/
inductive MessageOrError where
  | err (e : JsError)
  | msg (s : String)
  | undef
deriving DecidableEq, Repr

/-- `createError` of `src/assertions.ts`:
`messageOrError instanceof Error ? messageOrError
  : new Error(messageOrError ?? defaultMessage)`. -/
def createError (messageOrError : MessageOrError) (defaultMessage : String) :
    JsError :=
  match messageOrError with
  | .err e => e
  | .msg s => JsError.new s
  | .undef => JsError.new defaultMessage

mutual
/-- Congruent closure of reordering the alternatives of union shapes: two
shapes are related when one arises from the other by permuting the
alternative list of any `UnionShape` nodes, at any depth. -/
inductive PermShape : Shape → Shape → Prop where
  | prim (p : Prim) : PermShape (.prim p) (.prim p)
  | obj {fa fb : List (String × Shape × Bool)} :
      PermFields fa fb → PermShape (.obj fa) (.obj fb)
  | arr {e e' : Shape} : PermShape e e' → PermShape (.arr e) (.arr e')
  | union {l l' l'' : List Shape} : l.Perm l' →
      PermList l' l'' → PermShape (.union l) (.union l'')

/-- Pointwise `PermShape` on lists of shapes. -/
inductive PermList : List Shape → List Shape → Prop where
  | nil : PermList [] []
  | cons {x y : Shape} {xs ys : List Shape} : PermShape x y →
      PermList xs ys → PermList (x :: xs) (y :: ys)

/-- Pointwise relation on field lists: names and optionality unchanged,
field shapes related by `PermShape`. -/
inductive PermFields :
    List (String × Shape × Bool) → List (String × Shape × Bool) → Prop where
  | nil : PermFields [] []
  | cons {k : String} {s s' : Shape} {o : Bool}
      {rest rest' : List (String × Shape × Bool)} : PermShape s s' →
      PermFields rest rest' →
      PermFields ((k, s, o) :: rest) ((k, s', o) :: rest')
end

theorem zeroComb_nev_left (y : TV) : zeroComb .nev y = y := by
  cases y <;> rfl

theorem zeroComb_nev_right (x : TV) : zeroComb x .nev = x := by
  cases x <;> rfl

theorem oneComb_nev_left (y : TV) : oneComb .nev y = y := by
  cases y <;> rfl

theorem oneComb_nev_right (x : TV) : oneComb x .nev = x := by
  cases x <;> rfl

theorem zeroComb_assoc (x y z : TV) :
    zeroComb (zeroComb x y) z = zeroComb x (zeroComb y z) := by
  cases x <;> cases y <;> cases z <;> rfl

theorem oneComb_assoc (x y z : TV) :
    oneComb (oneComb x y) z = oneComb x (oneComb y z) := by
  cases x <;> cases y <;> cases z <;> rfl

theorem zeroComb_eq_zero_iff (x y : TV) :
    zeroComb x y = .zero ↔ x = .zero ∨ y = .zero := by
  cases x <;> cases y <;> simp [zeroComb]

theorem zeroComb_eq_nev_iff (x y : TV) :
    zeroComb x y = .nev ↔ x = .nev ∧ y = .nev := by
  cases x <;> cases y <;> simp [zeroComb]

theorem oneComb_eq_one_iff (x y : TV) :
    oneComb x y = .one ↔ x = .one ∨ y = .one := by
  cases x <;> cases y <;> simp [oneComb]

theorem oneComb_eq_nev_iff (x y : TV) :
    oneComb x y = .nev ↔ x = .nev ∧ y = .nev := by
  cases x <;> cases y <;> simp [oneComb]

theorem TV.eq_one_of_ne (x : TV) (h0 : x ≠ .zero) (hn : x ≠ .nev) : x = .one := by
  cases x <;> simp_all

theorem noExtraPropsCands_eq_zero_iff (l : List Shape) (E : Shape) (u : Bool) :
    noExtraPropsCands l E u = .zero ↔ ∃ a ∈ l, noExtraProps a E u = .zero := by
  induction l with
  | nil => simp [noExtraPropsCands]
  | cons a rest ih =>
    simp only [noExtraPropsCands, zeroComb_eq_zero_iff, ih, List.mem_cons]
    constructor
    · rintro (h | ⟨x, hx, hv⟩)
      · exact ⟨a, Or.inl rfl, h⟩
      · exact ⟨x, Or.inr hx, hv⟩
    · rintro ⟨x, hx | hx, hv⟩
      · subst hx
        exact Or.inl hv
      · exact Or.inr ⟨x, hx, hv⟩

theorem noExtraPropsCands_eq_nev_iff (l : List Shape) (E : Shape) (u : Bool) :
    noExtraPropsCands l E u = .nev ↔ ∀ a ∈ l, noExtraProps a E u = .nev := by
  induction l with
  | nil => simp [noExtraPropsCands]
  | cons a rest ih =>
    simp only [noExtraPropsCands, zeroComb_eq_nev_iff, ih, List.mem_cons]
    constructor
    · rintro ⟨h, hrest⟩ x (hx | hx)
      · subst hx; exact h
      · exact hrest x hx
    · intro h
      exact ⟨h a (Or.inl rfl), fun x hx => h x (Or.inr hx)⟩

theorem noExtraPropsExps_eq_one_iff (a : Shape) (l : List Shape) :
    noExtraPropsExps a l = .one ↔ ∃ e ∈ l, noExtraPropsExp a e = .one := by
  induction l with
  | nil => simp [noExtraPropsExps]
  | cons e rest ih =>
    simp only [noExtraPropsExps, oneComb_eq_one_iff, ih, List.mem_cons]
    constructor
    · rintro (h | ⟨x, hx, hv⟩)
      · exact ⟨e, Or.inl rfl, h⟩
      · exact ⟨x, Or.inr hx, hv⟩
    · rintro ⟨x, hx | hx, hv⟩
      · subst hx
        exact Or.inl hv
      · exact Or.inr ⟨x, hx, hv⟩

theorem noExtraPropsExps_eq_nev_iff (a : Shape) (l : List Shape) :
    noExtraPropsExps a l = .nev ↔ ∀ e ∈ l, noExtraPropsExp a e = .nev := by
  induction l with
  | nil => simp [noExtraPropsExps]
  | cons e rest ih =>
    simp only [noExtraPropsExps, oneComb_eq_nev_iff, ih, List.mem_cons]
    constructor
    · rintro ⟨h, hrest⟩ x (hx | hx)
      · subst hx; exact h
      · exact hrest x hx
    · intro h
      exact ⟨h e (Or.inl rfl), fun x hx => h x (Or.inr hx)⟩

theorem primAssignableList_iff (p : Prim) (l : List Shape) :
    primAssignableList p l = true ↔ ∃ e ∈ l, primAssignable p e = true := by
  induction l with
  | nil => simp [primAssignableList]
  | cons e rest ih =>
    simp only [primAssignableList, Bool.or_eq_true, ih, List.mem_cons]
    constructor
    · rintro (h | ⟨x, hx, hv⟩)
      · exact ⟨e, Or.inl rfl, h⟩
      · exact ⟨x, Or.inr hx, hv⟩
    · rintro ⟨x, hx | hx, hv⟩
      · subst hx
        exact Or.inl hv
      · exact Or.inr ⟨x, hx, hv⟩

theorem noExtraPropsFields_cons (fa : List (String × Shape × Bool))
    (ent : String × Shape × Bool) (rest : List (String × Shape × Bool)) :
    noExtraPropsFields fa (ent :: rest) =
      (if fieldVal fa ent = .zero then .zero else noExtraPropsFields fa rest) := by
  obtain ⟨k, se, oe⟩ := ent
  rw [noExtraPropsFields]
  cases h : lookupField fa k with
  | some v =>
    obtain ⟨sa, oa⟩ := v
    have hfv : fieldVal fa (k, se, oe) =
        (if oa && !oe then TV.zero else noExtraProps sa se oe) := by
      simp only [fieldVal, h]
    rw [hfv]
    by_cases ho : (oa && !oe) = true
    · simp [ho]
    · simp only [Bool.not_eq_true] at ho
      simp only [ho, Bool.false_eq_true, if_false]
      cases hv : noExtraProps sa se oe <;> simp
  | none =>
    have hfv : fieldVal fa (k, se, oe) = (if oe then TV.one else TV.zero) := by
      simp only [fieldVal, h]
    rw [hfv]
    by_cases hoe : oe = true
    · simp [hoe]
    · simp only [Bool.not_eq_true] at hoe
      simp [hoe]

theorem noExtraPropsFields_eq_zero_iff (fa fe : List (String × Shape × Bool)) :
    noExtraPropsFields fa fe = .zero ↔ ∃ ent ∈ fe, fieldVal fa ent = .zero := by
  induction fe with
  | nil => simp [noExtraPropsFields]
  | cons ent rest ih =>
    rw [noExtraPropsFields_cons]
    by_cases hv : fieldVal fa ent = .zero
    · simp [hv]
    · simp [hv, ih]

theorem noExtraPropsFields_ne_nev (fa fe : List (String × Shape × Bool)) :
    noExtraPropsFields fa fe ≠ .nev := by
  induction fe with
  | nil => simp [noExtraPropsFields]
  | cons ent rest ih =>
    rw [noExtraPropsFields_cons]
    by_cases hv : fieldVal fa ent = .zero
    · simp [hv]
    · simp [hv, ih]

theorem noExtraPropsFields_eq_one_iff (fa fe : List (String × Shape × Bool)) :
    noExtraPropsFields fa fe = .one ↔ ∀ ent ∈ fe, fieldVal fa ent ≠ .zero := by
  constructor
  · intro h ent hent hz
    have := (noExtraPropsFields_eq_zero_iff fa fe).mpr ⟨ent, hent, hz⟩
    rw [h] at this
    cases this
  · intro h
    apply TV.eq_one_of_ne
    · intro hz
      obtain ⟨ent, hent, hv⟩ := (noExtraPropsFields_eq_zero_iff fa fe).mp hz
      exact h ent hent hv
    · exact noExtraPropsFields_ne_nev fa fe

theorem tsExtendsFields_cons (fa : List (String × Shape × Bool))
    (ent : String × Shape × Bool) (rest : List (String × Shape × Bool)) :
    tsExtendsFields fa (ent :: rest) =
      (fieldSub fa ent && tsExtendsFields fa rest) := by
  obtain ⟨k, se, oe⟩ := ent
  rw [tsExtendsFields]
  cases h : lookupField fa k with
  | some v =>
    obtain ⟨sa, oa⟩ := v
    have hfv : fieldSub fa (k, se, oe) = ((!oa || oe) && tsExtends sa se oe) := by
      simp only [fieldSub, h]
    rw [hfv]
  | none =>
    have hfv : fieldSub fa (k, se, oe) = oe := by
      simp only [fieldSub, h]
    rw [hfv]

theorem tsExtendsFields_iff (fa fe : List (String × Shape × Bool)) :
    tsExtendsFields fa fe = true ↔ ∀ ent ∈ fe, fieldSub fa ent = true := by
  induction fe with
  | nil => simp [tsExtendsFields]
  | cons ent rest ih =>
    rw [tsExtendsFields_cons]
    simp [ih]

theorem tsExtendsCands_iff (l : List Shape) (E : Shape) (u : Bool) :
    tsExtendsCands l E u = true ↔ ∀ a ∈ l, tsExtends a E u = true := by
  induction l with
  | nil => simp [tsExtendsCands]
  | cons a rest ih =>
    rw [tsExtendsCands]
    simp [ih]

theorem tsExtendsList_iff (a : Shape) (l : List Shape) :
    tsExtendsList a l = true ↔ ∃ e ∈ l, tsExtendsSome a e = true := by
  induction l with
  | nil => simp [tsExtendsList]
  | cons e rest ih =>
    rw [tsExtendsList]
    simp only [Bool.or_eq_true, ih, List.mem_cons]
    constructor
    · rintro (h | ⟨x, hx, hv⟩)
      · exact ⟨e, Or.inl rfl, h⟩
      · exact ⟨x, Or.inr hx, hv⟩
    · rintro ⟨x, hx | hx, hv⟩
      · subst hx
        exact Or.inl hv
      · exact Or.inr ⟨x, hx, hv⟩

theorem mem_altsList_iff (x : Shape) (l : List Shape) :
    x ∈ altsList l ↔ ∃ s ∈ l, x ∈ alts s := by
  induction l with
  | nil => simp [altsList]
  | cons s rest ih =>
    rw [altsList]
    simp only [List.mem_append, ih, List.mem_cons]
    constructor
    · rintro (h | ⟨y, hy, hv⟩)
      · exact ⟨s, Or.inl rfl, h⟩
      · exact ⟨y, Or.inr hy, hv⟩
    · rintro ⟨y, hy | hy, hv⟩
      · subst hy
        exact Or.inl hv
      · exact Or.inr ⟨y, hy, hv⟩

theorem sizeOf_mem_alts {x S : Shape} (h : x ∈ alts S) : sizeOf x ≤ sizeOf S := by
  match S with
  | .prim p => rw [alts] at h; simp at h; subst h; exact Nat.le_refl _
  | .obj fs => rw [alts] at h; simp at h; subst h; exact Nat.le_refl _
  | .arr e => rw [alts] at h; simp at h; subst h; exact Nat.le_refl _
  | .union l =>
    rw [alts] at h
    obtain ⟨s, hs, hx⟩ := (mem_altsList_iff x l).mp h
    have h1 : sizeOf x ≤ sizeOf s := sizeOf_mem_alts hx
    have h2 : sizeOf s < sizeOf l := List.sizeOf_lt_of_mem hs
    simp only [Shape.union.sizeOf_spec]
    omega
termination_by sizeOf S
decreasing_by
  simp_wf
  have h2 : sizeOf s < sizeOf l := List.sizeOf_lt_of_mem hs
  simp
  omega

theorem not_union_mem_alts {x S : Shape} (h : x ∈ alts S) :
    shapeKind x ≠ .unionK := by
  match S with
  | .prim p => rw [alts] at h; simp at h; subst h; simp [shapeKind]
  | .obj fs => rw [alts] at h; simp at h; subst h; simp [shapeKind]
  | .arr e => rw [alts] at h; simp at h; subst h; simp [shapeKind]
  | .union l =>
    rw [alts] at h
    obtain ⟨s, hs, hx⟩ := (mem_altsList_iff x l).mp h
    exact not_union_mem_alts hx
termination_by sizeOf S
decreasing_by
  simp_wf
  have h2 : sizeOf s < sizeOf l := List.sizeOf_lt_of_mem hs
  omega

theorem mem_alts_self (S : Shape) (h : shapeKind S ≠ .unionK) : S ∈ alts S := by
  match S with
  | .prim p => rw [alts]; simp
  | .obj fs => rw [alts]; simp
  | .arr e => rw [alts]; simp
  | .union l => simp [shapeKind] at h

theorem nonEmptyUnionsList_iff (l : List Shape) :
    nonEmptyUnionsList l = true ↔ ∀ s ∈ l, nonEmptyUnions s = true := by
  induction l with
  | nil => simp [nonEmptyUnionsList]
  | cons s rest ih =>
    rw [nonEmptyUnionsList]
    simp [ih]

theorem nonEmptyUnionsFields_iff (fs : List (String × Shape × Bool)) :
    nonEmptyUnionsFields fs = true ↔ ∀ ent ∈ fs, nonEmptyUnions ent.2.1 = true := by
  induction fs with
  | nil => simp [nonEmptyUnionsFields]
  | cons ent rest ih =>
    obtain ⟨k, s, o⟩ := ent
    rw [nonEmptyUnionsFields]
    simp [ih]

theorem uniqueKeysList_iff (l : List Shape) :
    uniqueKeysList l = true ↔ ∀ s ∈ l, uniqueKeys s = true := by
  induction l with
  | nil => simp [uniqueKeysList]
  | cons s rest ih =>
    rw [uniqueKeysList]
    simp [ih]

theorem lookupField_mem {fs : List (String × Shape × Bool)} {k : String}
    {s : Shape} {o : Bool} (h : lookupField fs k = some (s, o)) :
    (k, s, o) ∈ fs := by
  induction fs with
  | nil => simp [lookupField] at h
  | cons f rest ih =>
    obtain ⟨k', s', o'⟩ := f
    rw [lookupField] at h
    by_cases hk : k' = k
    · simp only [hk, if_true, Option.some.injEq, Prod.mk.injEq] at h
      obtain ⟨hs, ho⟩ := h
      subst hk hs ho
      exact List.mem_cons_self _ _
    · simp only [hk, if_false] at h
      exact List.mem_cons_of_mem _ (ih h)

theorem lookupField_eq_none_iff (fs : List (String × Shape × Bool)) (k : String) :
    lookupField fs k = none ↔ hasField fs k = false := by
  induction fs with
  | nil => simp [lookupField, hasField]
  | cons f rest ih =>
    obtain ⟨k', s', o'⟩ := f
    rw [lookupField]
    by_cases hk : k' = k
    · simp [hk, hasField]
    · simp only [hk, if_false, ih]
      simp [hasField, hk]

theorem lookupField_isSome_of_hasField {fs : List (String × Shape × Bool)}
    {k : String} (h : hasField fs k = true) :
    ∃ s o, lookupField fs k = some (s, o) := by
  cases hl : lookupField fs k with
  | some v =>
    exact ⟨v.1, v.2, by simp⟩
  | none =>
    rw [lookupField_eq_none_iff] at hl
    rw [h] at hl
    cases hl

theorem lookupField_self {fs : List (String × Shape × Bool)} {k : String}
    {s : Shape} {o : Bool} (hu : uniqueKeysFields fs = true)
    (hmem : (k, s, o) ∈ fs) : lookupField fs k = some (s, o) := by
  induction fs with
  | nil => cases hmem
  | cons f rest ih =>
    obtain ⟨k', s', o'⟩ := f
    rw [uniqueKeysFields] at hu
    simp only [Bool.and_eq_true] at hu
    obtain ⟨⟨hnf, _⟩, hrest⟩ := hu
    rw [lookupField]
    rcases List.mem_cons.mp hmem with hx | hx
    · cases hx
      simp
    · by_cases hk : k' = k
      · subst hk
        exfalso
        have : hasField rest k' = true := by
          simp only [hasField, List.any_eq_true]
          refine ⟨(k', s, o), hx, by simp⟩
        rw [this] at hnf
        cases hnf
      · simp only [hk, if_false]
        exact ih hrest hx

theorem uniqueKeysFields_shape {fs : List (String × Shape × Bool)}
    (hu : uniqueKeysFields fs = true) {ent : String × Shape × Bool}
    (hmem : ent ∈ fs) : uniqueKeys ent.2.1 = true := by
  induction fs with
  | nil => cases hmem
  | cons f rest ih =>
    obtain ⟨k', s', o'⟩ := f
    rw [uniqueKeysFields] at hu
    simp only [Bool.and_eq_true] at hu
    obtain ⟨⟨_, hs⟩, hrest⟩ := hu
    rcases List.mem_cons.mp hmem with hx | hx
    · subst hx
      exact hs
    · exact ih hrest hx

theorem neu_mem_alts {S x : Shape} (hS : nonEmptyUnions S = true)
    (hx : x ∈ alts S) : nonEmptyUnions x = true := by
  match S with
  | .prim p => rw [alts] at hx; simp at hx; subst hx; exact hS
  | .obj fs => rw [alts] at hx; simp at hx; subst hx; exact hS
  | .arr e => rw [alts] at hx; simp at hx; subst hx; exact hS
  | .union l =>
    rw [alts] at hx
    obtain ⟨s, hs, hxs⟩ := (mem_altsList_iff x l).mp hx
    rw [nonEmptyUnions] at hS
    simp only [Bool.and_eq_true, nonEmptyUnionsList_iff] at hS
    exact neu_mem_alts (hS.2 s hs) hxs
termination_by sizeOf S
decreasing_by
  simp_wf
  have h2 : sizeOf s < sizeOf l := List.sizeOf_lt_of_mem hs
  omega

theorem alts_ne_nil {S : Shape} (hS : nonEmptyUnions S = true) :
    alts S ≠ [] := by
  match S with
  | .prim p => rw [alts]; simp
  | .obj fs => rw [alts]; simp
  | .arr e => rw [alts]; simp
  | .union l =>
    rw [alts]
    rw [nonEmptyUnions] at hS
    simp only [Bool.and_eq_true, nonEmptyUnionsList_iff] at hS
    obtain ⟨hne, hall⟩ := hS
    cases hl : l with
    | nil =>
      subst hl
      simp at hne
    | cons s rest =>
      have hmem : s ∈ l := by
        rw [hl]
        exact List.mem_cons_self _ _
      rw [altsList]
      have : alts s ≠ [] := alts_ne_nil (hall s hmem)
      intro hcontra
      rcases List.append_eq_nil.mp hcontra with ⟨h1, _⟩
      exact this h1
termination_by sizeOf S
decreasing_by
  simp_wf
  have h2 : sizeOf s < sizeOf l := List.sizeOf_lt_of_mem hmem
  omega

theorem noExtraPropsCands_append (xs ys : List Shape) (E : Shape) (u : Bool) :
    noExtraPropsCands (xs ++ ys) E u =
      zeroComb (noExtraPropsCands xs E u) (noExtraPropsCands ys E u) := by
  induction xs with
  | nil =>
    rw [List.nil_append]
    rw [noExtraPropsCands]
    rw [zeroComb_nev_left]
  | cons a rest ih =>
    rw [List.cons_append, noExtraPropsCands, noExtraPropsCands, ih, zeroComb_assoc]

theorem noExtraPropsExps_append (a : Shape) (xs ys : List Shape) :
    noExtraPropsExps a (xs ++ ys) =
      oneComb (noExtraPropsExps a xs) (noExtraPropsExps a ys) := by
  induction xs with
  | nil =>
    rw [List.nil_append]
    rw [noExtraPropsExps]
    rw [oneComb_nev_left]
  | cons e rest ih =>
    rw [List.cons_append, noExtraPropsExps, noExtraPropsExps, ih, oneComb_assoc]

theorem tsExtendsCands_append (xs ys : List Shape) (E : Shape) (u : Bool) :
    tsExtendsCands (xs ++ ys) E u =
      (tsExtendsCands xs E u && tsExtendsCands ys E u) := by
  induction xs with
  | nil =>
    rw [List.nil_append, tsExtendsCands, Bool.true_and]
  | cons a rest ih =>
    rw [List.cons_append, tsExtendsCands, tsExtendsCands, ih, Bool.and_assoc]

theorem tsExtendsList_append (a : Shape) (xs ys : List Shape) :
    tsExtendsList a (xs ++ ys) =
      (tsExtendsList a xs || tsExtendsList a ys) := by
  induction xs with
  | nil =>
    rw [List.nil_append, tsExtendsList, Bool.false_or]
  | cons e rest ih =>
    rw [List.cons_append, tsExtendsList, tsExtendsList, ih, Bool.or_assoc]

theorem primAssignableList_append (p : Prim) (xs ys : List Shape) :
    primAssignableList p (xs ++ ys) =
      (primAssignableList p xs || primAssignableList p ys) := by
  induction xs with
  | nil =>
    rw [List.nil_append, primAssignableList, Bool.false_or]
  | cons e rest ih =>
    rw [List.cons_append, primAssignableList, primAssignableList, ih, Bool.or_assoc]

mutual
theorem primAssignable_alts (p : Prim) (E : Shape) :
    primAssignable p E = primAssignableList p (alts E) := by
  match E with
  | .prim q =>
    rw [alts, primAssignableList, primAssignableList, Bool.or_false]
  | .obj fs =>
    simp [alts, primAssignable, primAssignableList]
  | .arr e =>
    simp [alts, primAssignable, primAssignableList]
  | .union l =>
    rw [alts, primAssignable, primAssignableList_altsList]
termination_by sizeOf E
decreasing_by
  all_goals simp_wf
  all_goals omega

theorem primAssignableList_altsList (p : Prim) (l : List Shape) :
    primAssignableList p (altsList l) = primAssignableList p l := by
  match l with
  | [] => rw [altsList]
  | s :: rest =>
    rw [altsList, primAssignableList_append]
    rw [primAssignableList_altsList]
    conv_rhs => rw [primAssignableList]
    rw [primAssignable_alts]
termination_by sizeOf l
decreasing_by
  all_goals simp_wf
  all_goals omega
end

mutual
theorem noExtraPropsExp_alts (a E : Shape) :
    noExtraPropsExp a E = noExtraPropsExps a (alts E) := by
  match E with
  | .prim q =>
    rw [alts, noExtraPropsExps, noExtraPropsExps, oneComb_nev_right]
  | .obj fs =>
    rw [alts, noExtraPropsExps, noExtraPropsExps, oneComb_nev_right]
  | .arr e =>
    rw [alts, noExtraPropsExps, noExtraPropsExps, oneComb_nev_right]
  | .union l =>
    rw [alts, noExtraPropsExp, noExtraPropsExps_altsList]
termination_by sizeOf E
decreasing_by
  all_goals simp_wf
  all_goals omega

theorem noExtraPropsExps_altsList (a : Shape) (l : List Shape) :
    noExtraPropsExps a (altsList l) = noExtraPropsExps a l := by
  match l with
  | [] => rw [altsList]
  | s :: rest =>
    rw [altsList, noExtraPropsExps_append]
    rw [noExtraPropsExps_altsList]
    conv_rhs => rw [noExtraPropsExps]
    rw [noExtraPropsExp_alts]
termination_by sizeOf l
decreasing_by
  all_goals simp_wf
  all_goals omega
end

mutual
theorem noExtraProps_alts (A E : Shape) (u : Bool) :
    noExtraProps A E u = noExtraPropsCands (alts A) E u := by
  match A with
  | .prim p =>
    rw [alts, noExtraPropsCands, noExtraPropsCands, zeroComb_nev_right]
  | .obj fs =>
    rw [alts, noExtraPropsCands, noExtraPropsCands, zeroComb_nev_right]
  | .arr e =>
    rw [alts, noExtraPropsCands, noExtraPropsCands, zeroComb_nev_right]
  | .union l =>
    rw [alts, noExtraProps, noExtraPropsCands_altsList]
termination_by sizeOf A
decreasing_by
  all_goals simp_wf
  all_goals omega

theorem noExtraPropsCands_altsList (l : List Shape) (E : Shape) (u : Bool) :
    noExtraPropsCands (altsList l) E u = noExtraPropsCands l E u := by
  match l with
  | [] => rw [altsList]
  | s :: rest =>
    rw [altsList, noExtraPropsCands_append]
    rw [noExtraPropsCands_altsList]
    conv_rhs => rw [noExtraPropsCands]
    rw [noExtraProps_alts]
termination_by sizeOf l
decreasing_by
  all_goals simp_wf
  all_goals omega
end

mutual
theorem tsExtendsSome_alts (a E : Shape) :
    tsExtendsSome a E = tsExtendsList a (alts E) := by
  match E with
  | .prim q =>
    rw [alts, tsExtendsList, tsExtendsList, Bool.or_false]
  | .obj fs =>
    rw [alts, tsExtendsList, tsExtendsList, Bool.or_false]
  | .arr e =>
    rw [alts, tsExtendsList, tsExtendsList, Bool.or_false]
  | .union l =>
    rw [alts, tsExtendsSome, tsExtendsList_altsList]
termination_by sizeOf E
decreasing_by
  all_goals simp_wf
  all_goals omega

theorem tsExtendsList_altsList (a : Shape) (l : List Shape) :
    tsExtendsList a (altsList l) = tsExtendsList a l := by
  match l with
  | [] => rw [altsList]
  | s :: rest =>
    rw [altsList, tsExtendsList_append]
    rw [tsExtendsList_altsList]
    conv_rhs => rw [tsExtendsList]
    rw [tsExtendsSome_alts]
termination_by sizeOf l
decreasing_by
  all_goals simp_wf
  all_goals omega
end

mutual
theorem tsExtends_alts (A E : Shape) (u : Bool) :
    tsExtends A E u = tsExtendsCands (alts A) E u := by
  match A with
  | .prim p =>
    rw [alts, tsExtendsCands, tsExtendsCands, Bool.and_true]
  | .obj fs =>
    rw [alts, tsExtendsCands, tsExtendsCands, Bool.and_true]
  | .arr e =>
    rw [alts, tsExtendsCands, tsExtendsCands, Bool.and_true]
  | .union l =>
    rw [alts, tsExtends, tsExtendsCands_altsList]
termination_by sizeOf A
decreasing_by
  all_goals simp_wf
  all_goals omega

theorem tsExtendsCands_altsList (l : List Shape) (E : Shape) (u : Bool) :
    tsExtendsCands (altsList l) E u = tsExtendsCands l E u := by
  match l with
  | [] => rw [altsList]
  | s :: rest =>
    rw [altsList, tsExtendsCands_append]
    rw [tsExtendsCands_altsList]
    conv_rhs => rw [tsExtendsCands]
    rw [tsExtends_alts]
termination_by sizeOf l
decreasing_by
  all_goals simp_wf
  all_goals omega
end

theorem zeroComb_ne_nev_left {x : TV} (h : x ≠ .nev) (y : TV) :
    zeroComb x y ≠ .nev := by
  cases x <;> cases y <;> simp_all [zeroComb]

theorem oneComb_ne_nev_left {x : TV} (h : x ≠ .nev) (y : TV) :
    oneComb x y ≠ .nev := by
  cases x <;> cases y <;> simp_all [oneComb]

theorem undefAdjust_ne_nev {x : TV} (h : x ≠ .nev) (u : Bool) :
    undefAdjust x u ≠ .nev := by
  cases x <;> cases u <;> simp_all [undefAdjust]

theorem undefAdjust_eq_one_iff (x : TV) (u : Bool) :
    undefAdjust x u = .one ↔ x = .one := by
  cases x <;> cases u <;> simp [undefAdjust]

theorem neu_union {l : List Shape} (h : nonEmptyUnions (.union l) = true) :
    l ≠ [] ∧ ∀ s ∈ l, nonEmptyUnions s = true := by
  rw [nonEmptyUnions] at h
  simp only [Bool.and_eq_true, nonEmptyUnionsList_iff] at h
  refine ⟨?_, h.2⟩
  intro hl
  subst hl
  simp at h

theorem neu_arr {e : Shape} (h : nonEmptyUnions (.arr e) = true) :
    nonEmptyUnions e = true := by
  rw [nonEmptyUnions] at h
  exact h

theorem neu_obj {fs : List (String × Shape × Bool)}
    (h : nonEmptyUnions (.obj fs) = true) :
    ∀ ent ∈ fs, nonEmptyUnions ent.2.1 = true := by
  rw [nonEmptyUnions] at h
  exact (nonEmptyUnionsFields_iff fs).mp h

theorem leafExtends_refl (p : Prim) : leafExtends p p = true := by
  cases p <;> simp [leafExtends]

theorem noExtraPropsExp_union (a : Shape) (l : List Shape) :
    noExtraPropsExp a (.union l) = noExtraPropsExps a l := by
  rw [noExtraPropsExp]

theorem noExtraPropsExp_prim (a : Shape) (q : Prim) :
    noExtraPropsExp a (.prim q) = .zero := by
  rw [noExtraPropsExp]

theorem noExtraPropsExp_arr_arr (ea ee : Shape) :
    noExtraPropsExp (.arr ea) (.arr ee) = noExtraProps ea ee false := by
  rw [noExtraPropsExp]

theorem noExtraPropsExp_obj_arr (fa : List (String × Shape × Bool)) (ee : Shape) :
    noExtraPropsExp (.obj fa) (.arr ee) = .zero := by
  rw [noExtraPropsExp] <;> simp

theorem noExtraPropsExp_prim_arr (p : Prim) (ee : Shape) :
    noExtraPropsExp (.prim p) (.arr ee) = .zero := by
  rw [noExtraPropsExp] <;> simp

theorem noExtraPropsExp_union_arr (l : List Shape) (ee : Shape) :
    noExtraPropsExp (.union l) (.arr ee) = .zero := by
  rw [noExtraPropsExp] <;> simp

theorem noExtraPropsExp_obj_obj (fa fe : List (String × Shape × Bool)) :
    noExtraPropsExp (.obj fa) (.obj fe) =
      (if fa.all (fun f => hasField fe f.1) then noExtraPropsFields fa fe
       else .zero) := by
  rw [noExtraPropsExp] <;> simp

theorem noExtraPropsExp_arr_obj (ea : Shape) (fe : List (String × Shape × Bool)) :
    noExtraPropsExp (.arr ea) (.obj fe) = .zero := by
  rw [noExtraPropsExp]

theorem noExtraPropsExp_prim_obj (p : Prim) (fe : List (String × Shape × Bool)) :
    noExtraPropsExp (.prim p) (.obj fe) = .zero := by
  rw [noExtraPropsExp] <;> simp

theorem noExtraPropsExp_union_obj (l : List Shape) (fe : List (String × Shape × Bool)) :
    noExtraPropsExp (.union l) (.obj fe) = .zero := by
  rw [noExtraPropsExp] <;> simp

theorem tsExtendsSome_union (a : Shape) (l : List Shape) :
    tsExtendsSome a (.union l) = tsExtendsList a l := by
  rw [tsExtendsSome]

theorem tsExtendsSome_prim (a : Shape) (q : Prim) :
    tsExtendsSome a (.prim q) = false := by
  rw [tsExtendsSome]

theorem tsExtendsSome_arr_arr (ea ee : Shape) :
    tsExtendsSome (.arr ea) (.arr ee) = tsExtends ea ee false := by
  rw [tsExtendsSome]

theorem tsExtendsSome_obj_arr (fa : List (String × Shape × Bool)) (ee : Shape) :
    tsExtendsSome (.obj fa) (.arr ee) = false := by
  rw [tsExtendsSome] <;> simp

theorem tsExtendsSome_prim_arr (p : Prim) (ee : Shape) :
    tsExtendsSome (.prim p) (.arr ee) = false := by
  rw [tsExtendsSome] <;> simp

theorem tsExtendsSome_union_arr (l : List Shape) (ee : Shape) :
    tsExtendsSome (.union l) (.arr ee) = false := by
  rw [tsExtendsSome] <;> simp

theorem tsExtendsSome_obj_obj (fa fe : List (String × Shape × Bool)) :
    tsExtendsSome (.obj fa) (.obj fe) = tsExtendsFields fa fe := by
  rw [tsExtendsSome] <;> simp

theorem tsExtendsSome_arr_obj (ea : Shape) (fe : List (String × Shape × Bool)) :
    tsExtendsSome (.arr ea) (.obj fe) = false := by
  rw [tsExtendsSome] <;> simp

theorem tsExtendsSome_prim_obj (p : Prim) (fe : List (String × Shape × Bool)) :
    tsExtendsSome (.prim p) (.obj fe) = false := by
  rw [tsExtendsSome] <;> simp

theorem tsExtendsSome_union_obj (l : List Shape) (fe : List (String × Shape × Bool)) :
    tsExtendsSome (.union l) (.obj fe) = false := by
  rw [tsExtendsSome] <;> simp

mutual
theorem noExtraProps_ne_nev {A E : Shape} (u : Bool)
    (hA : nonEmptyUnions A = true) (hE : nonEmptyUnions E = true) :
    noExtraProps A E u ≠ .nev := by
  match A with
  | .prim p =>
    rw [noExtraProps]
    by_cases hc : (primAssignable p E || (u && p = Prim.undef)) = true <;> simp [hc]
  | .obj fa =>
    rw [noExtraProps]
    exact undefAdjust_ne_nev (noExtraPropsExp_ne_nev hA hE) u
  | .arr ea =>
    rw [noExtraProps]
    exact undefAdjust_ne_nev (noExtraPropsExp_ne_nev hA hE) u
  | .union l =>
    rw [noExtraProps]
    obtain ⟨hne, hall⟩ := neu_union hA
    cases hl : l with
    | nil => exact absurd hl hne
    | cons s rest =>
      have hmem : s ∈ l := by
        rw [hl]
        exact List.mem_cons_self _ _
      rw [noExtraPropsCands]
      exact zeroComb_ne_nev_left (noExtraProps_ne_nev u (hall s hmem) hE) _
termination_by (sizeOf A + sizeOf E, 1)
decreasing_by
  all_goals simp_wf
  all_goals try have hsz := List.sizeOf_lt_of_mem hmem
  all_goals first
  | (apply Prod.Lex.right; omega)
  | (apply Prod.Lex.left; omega)

theorem noExtraPropsExp_ne_nev {a E : Shape}
    (ha : nonEmptyUnions a = true) (hE : nonEmptyUnions E = true) :
    noExtraPropsExp a E ≠ .nev := by
  match a, E with
  | _, .prim q =>
    rw [noExtraPropsExp_prim]
    simp
  | .arr ea, .arr ee =>
    rw [noExtraPropsExp_arr_arr]
    exact noExtraProps_ne_nev false (neu_arr ha) (neu_arr hE)
  | .obj fa, .arr ee =>
    rw [noExtraPropsExp_obj_arr]
    simp
  | .prim p, .arr ee =>
    rw [noExtraPropsExp_prim_arr]
    simp
  | .union l', .arr ee =>
    rw [noExtraPropsExp_union_arr]
    simp
  | .obj fa, .obj fe =>
    rw [noExtraPropsExp_obj_obj]
    by_cases hc : fa.all (fun f => hasField fe f.1) = true
    · simp only [hc, if_true]
      exact noExtraPropsFields_ne_nev fa fe
    · simp only [hc, if_false]
      simp
  | .arr ea, .obj fe =>
    rw [noExtraPropsExp_arr_obj]
    simp
  | .prim p, .obj fe =>
    rw [noExtraPropsExp_prim_obj]
    simp
  | .union l', .obj fe =>
    rw [noExtraPropsExp_union_obj]
    simp
  | _, .union l =>
    rw [noExtraPropsExp_union]
    obtain ⟨hne, hall⟩ := neu_union hE
    cases hl : l with
    | nil => exact absurd hl hne
    | cons e rest =>
      have hmem : e ∈ l := by
        rw [hl]
        exact List.mem_cons_self _ _
      rw [noExtraPropsExps]
      exact oneComb_ne_nev_left (noExtraPropsExp_ne_nev ha (hall e hmem)) _
termination_by (sizeOf a + sizeOf E, 0)
decreasing_by
  all_goals simp_wf
  all_goals try have hsz := List.sizeOf_lt_of_mem hmem
  all_goals first
  | (apply Prod.Lex.left; omega)
  | (apply Prod.Lex.right; omega)
end

theorem optionality_ok {oa oe : Bool} (h : (oa && !oe) = false) :
    (!oa || oe) = true := by
  cases oa <;> cases oe <;> simp_all

mutual
theorem noExtraProps_one_tsExtends {A E : Shape} {u : Bool}
    (hA : nonEmptyUnions A = true) (hE : nonEmptyUnions E = true)
    (h : noExtraProps A E u = .one) : tsExtends A E u = true := by
  match A with
  | .prim p =>
    rw [noExtraProps] at h
    rw [tsExtends]
    by_cases hc : (primAssignable p E || (u && p = Prim.undef)) = true
    · exact hc
    · rw [if_neg hc] at h
      cases h
  | .obj fa =>
    rw [noExtraProps] at h
    rw [undefAdjust_eq_one_iff] at h
    rw [tsExtends]
    exact noExtraPropsExp_one_tsExtendsSome hA hE h
  | .arr ea =>
    rw [noExtraProps] at h
    rw [undefAdjust_eq_one_iff] at h
    rw [tsExtends]
    exact noExtraPropsExp_one_tsExtendsSome hA hE h
  | .union l =>
    rw [noExtraProps] at h
    rw [tsExtends, tsExtendsCands_iff]
    intro a hmem
    obtain ⟨-, hall⟩ := neu_union hA
    have hz : noExtraProps a E u ≠ .zero := by
      intro hz
      have hcontra := (noExtraPropsCands_eq_zero_iff l E u).mpr ⟨a, hmem, hz⟩
      rw [h] at hcontra
      cases hcontra
    have hn : noExtraProps a E u ≠ .nev :=
      noExtraProps_ne_nev u (hall a hmem) hE
    exact noExtraProps_one_tsExtends (hall a hmem) hE (TV.eq_one_of_ne _ hz hn)
termination_by (sizeOf A + sizeOf E, 1)
decreasing_by
  all_goals simp_wf
  all_goals try have hsz := List.sizeOf_lt_of_mem hmem
  all_goals first
  | (apply Prod.Lex.right; omega)
  | (apply Prod.Lex.left; omega)

theorem noExtraPropsExp_one_tsExtendsSome {a E : Shape}
    (ha : nonEmptyUnions a = true) (hE : nonEmptyUnions E = true)
    (h : noExtraPropsExp a E = .one) : tsExtendsSome a E = true := by
  match a, E with
  | _, .prim q =>
    rw [noExtraPropsExp_prim] at h
    cases h
  | .arr ea, .arr ee =>
    rw [noExtraPropsExp_arr_arr] at h
    rw [tsExtendsSome_arr_arr]
    exact noExtraProps_one_tsExtends (neu_arr ha) (neu_arr hE) h
  | .obj fa, .arr ee =>
    rw [noExtraPropsExp_obj_arr] at h
    cases h
  | .prim p, .arr ee =>
    rw [noExtraPropsExp_prim_arr] at h
    cases h
  | .union l', .arr ee =>
    rw [noExtraPropsExp_union_arr] at h
    cases h
  | .arr ea, .obj fe =>
    rw [noExtraPropsExp_arr_obj] at h
    cases h
  | .prim p, .obj fe =>
    rw [noExtraPropsExp_prim_obj] at h
    cases h
  | .union l', .obj fe =>
    rw [noExtraPropsExp_union_obj] at h
    cases h
  | .obj fa, .obj fe =>
    rw [noExtraPropsExp_obj_obj] at h
    by_cases hc : fa.all (fun f => hasField fe f.1) = true
    · rw [if_pos hc] at h
      rw [tsExtendsSome_obj_obj, tsExtendsFields_iff]
      intro ent hent
      have hvz : fieldVal fa ent ≠ .zero :=
        (noExtraPropsFields_eq_one_iff fa fe).mp h ent hent
      obtain ⟨k, se, oe⟩ := ent
      cases hlk : lookupField fa k with
      | some v =>
        obtain ⟨sa, oa⟩ := v
        have hfv : fieldVal fa (k, se, oe) =
            (if oa && !oe then TV.zero else noExtraProps sa se oe) := by
          simp only [fieldVal, hlk]
        rw [hfv] at hvz
        by_cases ho : (oa && !oe) = true
        · rw [if_pos ho] at hvz
          cases hvz rfl
        · rw [if_neg ho] at hvz
          simp only [Bool.not_eq_true] at ho
          have hsa : nonEmptyUnions sa = true :=
            neu_obj ha (k, sa, oa) (lookupField_mem hlk)
          have hse : nonEmptyUnions se = true := neu_obj hE (k, se, oe) hent
          have hone : noExtraProps sa se oe = .one :=
            TV.eq_one_of_ne _ hvz (noExtraProps_ne_nev oe hsa hse)
          have hts : tsExtends sa se oe = true :=
            noExtraProps_one_tsExtends hsa hse hone
          simp only [fieldSub, hlk]
          rw [optionality_ok ho, hts]
          rfl
      | none =>
        have hfv : fieldVal fa (k, se, oe) = (if oe then TV.one else TV.zero) := by
          simp only [fieldVal, hlk]
        rw [hfv] at hvz
        by_cases hoe : oe = true
        · simp only [fieldSub, hlk]
          exact hoe
        · simp only [Bool.not_eq_true] at hoe
          rw [hoe] at hvz
          cases hvz rfl
    · rw [if_neg hc] at h
      cases h
  | _, .union l =>
    rw [noExtraPropsExp_union] at h
    obtain ⟨e, hmem, hone⟩ := (noExtraPropsExps_eq_one_iff _ l).mp h
    obtain ⟨-, hall⟩ := neu_union hE
    rw [tsExtendsSome_union, tsExtendsList_iff]
    exact ⟨e, hmem, noExtraPropsExp_one_tsExtendsSome ha (hall e hmem) hone⟩
termination_by (sizeOf a + sizeOf E, 0)
decreasing_by
  all_goals simp_wf
  all_goals try have hsz := List.sizeOf_lt_of_mem hmem
  all_goals try have hsz1 := sizeOf_lookupField hlk
  all_goals try have hsz2 := List.sizeOf_lt_of_mem hent
  all_goals try simp at hsz2
  all_goals first
  | (apply Prod.Lex.left; omega)
  | (apply Prod.Lex.right; omega)
end

theorem verdict_match_iff {C E : Shape} (hC : nonEmptyUnions C = true)
    (hE : nonEmptyUnions E = true) :
    ifExtendsWithoutExtraProps C E = .MATCH ↔ noExtraProps C E false = .one := by
  rw [ifExtendsWithoutExtraProps]
  by_cases h1 : noExtraProps C E false = TV.one
  · rw [if_pos h1, noExtraProps_one_tsExtends hC hE h1, if_pos rfl]
    simp [h1]
  · rw [if_neg h1]
    simp [h1]

theorem verdict_failure {C E : Shape} (hC : nonEmptyUnions C = true)
    (hE : nonEmptyUnions E = true)
    (h : ifExtendsWithoutExtraProps C E ≠ .MATCH) :
    ifExtendsWithoutExtraProps C E = .REJECTED_EXTRA_PROPERTIES := by
  rw [ifExtendsWithoutExtraProps] at h ⊢
  by_cases h1 : noExtraProps C E false = TV.one
  · exfalso
    rw [if_pos h1, noExtraProps_one_tsExtends hC hE h1, if_pos rfl] at h
    exact h rfl
  · rw [if_neg h1]

theorem hasField_of_mem {fs : List (String × Shape × Bool)}
    {f : String × Shape × Bool} (h : f ∈ fs) : hasField fs f.1 = true := by
  simp only [hasField, List.any_eq_true]
  exact ⟨f, h, by simp⟩

theorem uniq_arr {e : Shape} (h : uniqueKeys (.arr e) = true) :
    uniqueKeys e = true := by
  rw [uniqueKeys] at h
  exact h

theorem uniq_obj {fs : List (String × Shape × Bool)}
    (h : uniqueKeys (.obj fs) = true) : uniqueKeysFields fs = true := by
  rw [uniqueKeys] at h
  exact h

theorem uniq_union {l : List Shape} (h : uniqueKeys (.union l) = true) :
    ∀ s ∈ l, uniqueKeys s = true := by
  rw [uniqueKeys] at h
  exact (uniqueKeysList_iff l).mp h

theorem undefAdjust_one (u : Bool) : undefAdjust .one u = .one := by
  cases u <;> simp [undefAdjust]

theorem noExtraPropsCands_eq_one_of_all {l : List Shape} {E : Shape} {u : Bool}
    (hne : l ≠ []) (hall : ∀ a ∈ l, noExtraProps a E u = .one) :
    noExtraPropsCands l E u = .one := by
  induction l with
  | nil => exact absurd rfl hne
  | cons a rest ih =>
    rw [noExtraPropsCands]
    rw [hall a (List.mem_cons_self _ _)]
    cases hrest : rest with
    | nil =>
      subst hrest
      rw [noExtraPropsCands]
      rfl
    | cons b rest2 =>
      have hres : noExtraPropsCands rest E u = .one := by
        apply ih
        · rw [hrest]
          simp
        · exact fun x hx => hall x (List.mem_cons_of_mem _ hx)
      rw [← hrest, hres]
      rfl

theorem noExtraProps_self_of_sub {a E : Shape} (u : Bool)
    (hsub : ∀ x ∈ alts a, x ∈ alts E) (hu : uniqueKeys a = true)
    (hne : nonEmptyUnions a = true) :
    noExtraProps a E u = .one := by
  match a with
  | .prim p =>
    rw [noExtraProps]
    have hmem : Shape.prim p ∈ alts E := by
      apply hsub
      rw [alts]
      exact List.mem_cons_self _ _
    have hpa : primAssignable p E = true := by
      rw [primAssignable_alts, primAssignableList_iff]
      refine ⟨.prim p, hmem, ?_⟩
      rw [primAssignable]
      exact leafExtends_refl p
    rw [hpa]
    rw [Bool.true_or, if_pos rfl]
  | .obj fa =>
    rw [noExtraProps]
    have hexp : noExtraPropsExp (.obj fa) E = .one := by
      rw [noExtraPropsExp_alts, noExtraPropsExps_eq_one_iff]
      refine ⟨.obj fa, ?_, ?_⟩
      · apply hsub
        rw [alts]
        exact List.mem_cons_self _ _
      · rw [noExtraPropsExp_obj_obj]
        have hguard : fa.all (fun f => hasField fa f.1) = true := by
          rw [List.all_eq_true]
          intro f hf
          exact hasField_of_mem hf
        rw [if_pos hguard]
        rw [noExtraPropsFields_eq_one_iff]
        intro ent hent
        obtain ⟨k, se, oe⟩ := ent
        have hlk : lookupField fa k = some (se, oe) :=
          lookupField_self (uniq_obj hu) hent
        have hfv : fieldVal fa (k, se, oe) =
            (if oe && !oe then TV.zero else noExtraProps se se oe) := by
          simp only [fieldVal, hlk]
        rw [hfv, Bool.and_not_self, if_neg (by simp)]
        have : noExtraProps se se oe = .one := by
          apply noExtraProps_self_of_sub oe (fun x hx => hx)
          · exact uniqueKeysFields_shape (uniq_obj hu) hent
          · exact neu_obj hne (k, se, oe) hent
        rw [this]
        simp
    rw [hexp, undefAdjust_one]
  | .arr ea =>
    rw [noExtraProps]
    have hexp : noExtraPropsExp (.arr ea) E = .one := by
      rw [noExtraPropsExp_alts, noExtraPropsExps_eq_one_iff]
      refine ⟨.arr ea, ?_, ?_⟩
      · apply hsub
        rw [alts]
        exact List.mem_cons_self _ _
      · rw [noExtraPropsExp_arr_arr]
        exact noExtraProps_self_of_sub false (fun x hx => hx) (uniq_arr hu)
          (neu_arr hne)
    rw [hexp, undefAdjust_one]
  | .union l =>
    rw [noExtraProps]
    obtain ⟨hlne, hall⟩ := neu_union hne
    apply noExtraPropsCands_eq_one_of_all hlne
    intro s hmem
    apply noExtraProps_self_of_sub u
    · intro x hx
      apply hsub
      rw [alts]
      rw [mem_altsList_iff]
      exact ⟨s, hmem, hx⟩
    · exact uniq_union hu s hmem
    · exact hall s hmem
termination_by sizeOf a
decreasing_by
  all_goals simp_wf
  all_goals try have hsz := List.sizeOf_lt_of_mem hent
  all_goals try have hsz2 := List.sizeOf_lt_of_mem hmem
  all_goals try simp at hsz
  all_goals omega

theorem noExtraProps_self (S : Shape) (u : Bool) (hu : uniqueKeys S = true)
    (hne : nonEmptyUnions S = true) : noExtraProps S S u = .one :=
  noExtraProps_self_of_sub u (fun x hx => hx) hu hne

theorem undefAdjust_false (x : TV) : undefAdjust x false = x := by
  simp [undefAdjust]

theorem undefAdjust_zero (u : Bool) : undefAdjust .zero u = .zero := by
  cases u <;> simp [undefAdjust]

theorem nep_obj_eq (fa : List (String × Shape × Bool)) (E : Shape) :
    noExtraProps (.obj fa) E false = noExtraPropsExp (.obj fa) E := by
  rw [noExtraProps, undefAdjust_false]

theorem nep_arr_eq (ea : Shape) (E : Shape) :
    noExtraProps (.arr ea) E false = noExtraPropsExp (.arr ea) E := by
  rw [noExtraProps, undefAdjust_false]

theorem nep_prim_eq (p : Prim) (E : Shape) :
    noExtraProps (.prim p) E false =
      (if primAssignable p E then .one else .zero) := by
  rw [noExtraProps]
  simp

theorem verdict_of_ne_one {C E : Shape} (h : noExtraProps C E false ≠ .one) :
    ifExtendsWithoutExtraProps C E = .REJECTED_EXTRA_PROPERTIES := by
  rw [ifExtendsWithoutExtraProps, if_neg h]

theorem extraKey_zero {fa fe : List (String × Shape × Bool)}
    (hex : ∃ f ∈ fa, hasField fe f.1 = false) (u : Bool) :
    noExtraProps (.obj fa) (.obj fe) u = .zero := by
  rw [noExtraProps, noExtraPropsExp_obj_obj]
  have hguard : fa.all (fun f => hasField fe f.1) = false := by
    obtain ⟨f, hf, hnf⟩ := hex
    by_cases hg : fa.all (fun f => hasField fe f.1) = true
    · rw [List.all_eq_true] at hg
      rw [hg f hf] at hnf
      cases hnf
    · simp only [Bool.not_eq_true] at hg
      exact hg
  rw [hguard]
  simp only [Bool.false_eq_true, if_false]
  exact undefAdjust_zero u

theorem missingRequired_zero {fa fe : List (String × Shape × Bool)}
    {k : String} {se : Shape} (hse : lookupField fe k = some (se, false))
    (hfa : hasField fa k = false) (u : Bool) :
    noExtraProps (.obj fa) (.obj fe) u = .zero := by
  rw [noExtraProps, noExtraPropsExp_obj_obj]
  by_cases hg : fa.all (fun f => hasField fe f.1) = true
  · rw [if_pos hg]
    have hent : (k, se, false) ∈ fe := lookupField_mem hse
    have hnone : lookupField fa k = none := (lookupField_eq_none_iff fa k).mpr hfa
    have hfv : fieldVal fa (k, se, false) = .zero := by
      simp [fieldVal, hnone]
    have hz := (noExtraPropsFields_eq_zero_iff fa fe).mpr ⟨(k, se, false), hent, hfv⟩
    rw [hz]
    exact undefAdjust_zero u
  · rw [if_neg hg]
    exact undefAdjust_zero u

theorem optionalRequired_zero {fa fe : List (String × Shape × Bool)}
    {k : String} {sa se : Shape} (hsa : lookupField fa k = some (sa, true))
    (hse : lookupField fe k = some (se, false)) (u : Bool) :
    noExtraProps (.obj fa) (.obj fe) u = .zero := by
  rw [noExtraProps, noExtraPropsExp_obj_obj]
  by_cases hg : fa.all (fun f => hasField fe f.1) = true
  · rw [if_pos hg]
    have hent : (k, se, false) ∈ fe := lookupField_mem hse
    have hfv : fieldVal fa (k, se, false) = .zero := by
      simp [fieldVal, hsa]
    have hz := (noExtraPropsFields_eq_zero_iff fa fe).mpr ⟨(k, se, false), hent, hfv⟩
    rw [hz]
    exact undefAdjust_zero u
  · rw [if_neg hg]
    exact undefAdjust_zero u

theorem nep_prim_one_iff (p : Prim) (E : Shape) :
    noExtraProps (.prim p) E false = .one ↔ primAssignable p E = true := by
  rw [nep_prim_eq]
  by_cases hp : primAssignable p E = true <;> simp [hp]

theorem nep_nonUnion_union_iff {C : Shape} (hk : shapeKind C ≠ .unionK)
    (l : List Shape) :
    noExtraProps C (.union l) false = .one ↔
      ∃ e ∈ l, noExtraProps C e false = .one := by
  match C with
  | .prim p =>
    rw [nep_prim_one_iff, primAssignable, primAssignableList_iff]
    constructor
    · rintro ⟨e, he, hv⟩
      exact ⟨e, he, (nep_prim_one_iff p e).mpr hv⟩
    · rintro ⟨e, he, hv⟩
      exact ⟨e, he, (nep_prim_one_iff p e).mp hv⟩
  | .obj fa =>
    rw [nep_obj_eq, noExtraPropsExp_union, noExtraPropsExps_eq_one_iff]
    constructor
    · rintro ⟨e, he, hv⟩
      refine ⟨e, he, ?_⟩
      rw [nep_obj_eq]
      exact hv
    · rintro ⟨e, he, hv⟩
      rw [nep_obj_eq] at hv
      exact ⟨e, he, hv⟩
  | .arr ea =>
    rw [nep_arr_eq, noExtraPropsExp_union, noExtraPropsExps_eq_one_iff]
    constructor
    · rintro ⟨e, he, hv⟩
      refine ⟨e, he, ?_⟩
      rw [nep_arr_eq]
      exact hv
    · rintro ⟨e, he, hv⟩
      rw [nep_arr_eq] at hv
      exact ⟨e, he, hv⟩
  | .union l' => simp [shapeKind] at hk

theorem nep_union_all_iff {l : List Shape} {E : Shape}
    (hC : nonEmptyUnions (.union l) = true) (hE : nonEmptyUnions E = true) :
    noExtraProps (.union l) E false = .one ↔
      ∀ a ∈ l, noExtraProps a E false = .one := by
  obtain ⟨hlne, hall⟩ := neu_union hC
  rw [noExtraProps]
  constructor
  · intro h a hmem
    have hz : noExtraProps a E false ≠ .zero := by
      intro hz
      have hcontra := (noExtraPropsCands_eq_zero_iff l E false).mpr ⟨a, hmem, hz⟩
      rw [h] at hcontra
      cases hcontra
    exact TV.eq_one_of_ne _ hz (noExtraProps_ne_nev false (hall a hmem) hE)
  · intro h
    exact noExtraPropsCands_eq_one_of_all hlne h

theorem hasField_false_iff (fs : List (String × Shape × Bool)) (k : String) :
    hasField fs k = false ↔ ∀ f ∈ fs, f.1 ≠ k := by
  simp [hasField]

theorem removeField_cons (f : String × Shape × Bool)
    (rest : List (String × Shape × Bool)) (k : String) :
    removeField (f :: rest) k =
      (if f.1 = k then removeField rest k else f :: removeField rest k) := by
  by_cases hk : f.1 = k <;> simp [removeField, hk]

theorem hasField_removeField {fe : List (String × Shape × Bool)}
    {k k' : String} (hne : k' ≠ k) :
    hasField (removeField fe k) k' = hasField fe k' := by
  induction fe with
  | nil => simp [removeField]
  | cons f rest ih =>
    rw [removeField_cons]
    by_cases hk : f.1 = k
    · rw [if_pos hk, ih]
      have : ¬(f.1 = k') := by
        rw [hk]
        exact fun hc => hne hc.symm
      simp [hasField, this]
    · rw [if_neg hk]
      simp only [hasField, List.any_cons] at *
      rw [ih]

theorem guard_removeField {fa fe : List (String × Shape × Bool)} {k : String}
    (hfa : hasField fa k = false) :
    fa.all (fun f => hasField (removeField fe k) f.1) =
      fa.all (fun f => hasField fe f.1) := by
  have hk : ∀ f ∈ fa, f.1 ≠ k := (hasField_false_iff fa k).mp hfa
  clear hfa
  induction fa with
  | nil => simp
  | cons f rest ih =>
    have hkf := hk f (List.mem_cons_self _ _)
    have hkr : ∀ g ∈ rest, g.1 ≠ k := fun g hg => hk g (List.mem_cons_of_mem _ hg)
    simp only [List.all_cons]
    rw [hasField_removeField hkf, ih hkr]

theorem fields_removeField {fa fe : List (String × Shape × Bool)} {k : String}
    (hfa : lookupField fa k = none)
    (hopt : ∀ se' oe', (k, se', oe') ∈ fe → oe' = true) :
    noExtraPropsFields fa (removeField fe k) = noExtraPropsFields fa fe := by
  induction fe with
  | nil => simp [removeField]
  | cons f rest ih =>
    obtain ⟨k1, s1, o1⟩ := f
    rw [removeField_cons]
    by_cases hk : k1 = k
    · rw [if_pos hk]
      subst hk
      have ho1 : o1 = true := hopt s1 o1 (List.mem_cons_self _ _)
      subst ho1
      have hfv : fieldVal fa (k1, s1, true) = .one := by
        simp [fieldVal, hfa]
      rw [noExtraPropsFields_cons, hfv]
      rw [ih (fun se' oe' hmem => hopt se' oe' (List.mem_cons_of_mem _ hmem))]
      simp
    · rw [if_neg hk]
      rw [noExtraPropsFields_cons, noExtraPropsFields_cons]
      rw [ih (fun se' oe' hmem => hopt se' oe' (List.mem_cons_of_mem _ hmem))]
  
theorem tsFields_removeField {fa fe : List (String × Shape × Bool)} {k : String}
    (hfa : lookupField fa k = none)
    (hopt : ∀ se' oe', (k, se', oe') ∈ fe → oe' = true) :
    tsExtendsFields fa (removeField fe k) = tsExtendsFields fa fe := by
  induction fe with
  | nil => simp [removeField]
  | cons f rest ih =>
    obtain ⟨k1, s1, o1⟩ := f
    rw [removeField_cons]
    by_cases hk : k1 = k
    · rw [if_pos hk]
      subst hk
      have ho1 : o1 = true := hopt s1 o1 (List.mem_cons_self _ _)
      subst ho1
      have hfv : fieldSub fa (k1, s1, true) = true := by
        simp [fieldSub, hfa]
      rw [tsExtendsFields_cons, hfv]
      rw [ih (fun se' oe' hmem => hopt se' oe' (List.mem_cons_of_mem _ hmem))]
      simp
    · rw [if_neg hk]
      rw [tsExtendsFields_cons, tsExtendsFields_cons]
      rw [ih (fun se' oe' hmem => hopt se' oe' (List.mem_cons_of_mem _ hmem))]

theorem verdict_removeField {fa fe : List (String × Shape × Bool)} {k : String}
    (hfa : hasField fa k = false)
    (hopt : ∀ se' oe', (k, se', oe') ∈ fe → oe' = true) :
    ifExtendsWithoutExtraProps (.obj fa) (.obj (removeField fe k)) =
      ifExtendsWithoutExtraProps (.obj fa) (.obj fe) := by
  have hnone : lookupField fa k = none := (lookupField_eq_none_iff fa k).mpr hfa
  have hnep : noExtraProps (.obj fa) (.obj (removeField fe k)) false =
      noExtraProps (.obj fa) (.obj fe) false := by
    rw [nep_obj_eq, nep_obj_eq, noExtraPropsExp_obj_obj, noExtraPropsExp_obj_obj]
    rw [guard_removeField hfa, fields_removeField hnone hopt]
  have hts : tsExtends (.obj fa) (.obj (removeField fe k)) false =
      tsExtends (.obj fa) (.obj fe) false := by
    rw [tsExtends, tsExtends, tsExtendsSome_obj_obj, tsExtendsSome_obj_obj]
    rw [tsFields_removeField hnone hopt]
  rw [ifExtendsWithoutExtraProps, ifExtendsWithoutExtraProps, hnep, hts]

theorem nep_singleField {k : String} {sa se : Shape} {oa oe : Bool}
    (ho : (oa && !oe) = false) :
    noExtraProps (.obj [(k, sa, oa)]) (.obj [(k, se, oe)]) false =
      (if noExtraProps sa se oe = .zero then .zero else .one) := by
  rw [nep_obj_eq, noExtraPropsExp_obj_obj]
  have hguard : [(k, sa, oa)].all (fun f => hasField [(k, se, oe)] f.1) = true := by
    simp [hasField]
  rw [if_pos hguard]
  have hlk : lookupField [(k, sa, oa)] k = some (sa, oa) := by
    simp [lookupField]
  have hfv : fieldVal [(k, sa, oa)] (k, se, oe) = noExtraProps sa se oe := by
    simp only [fieldVal, hlk]
    rw [ho]
    simp
  rw [noExtraPropsFields_cons, hfv, noExtraPropsFields]

theorem leafExtends_lit_lit (v w : LitVal) :
    leafExtends (.lit v) (.lit w) = true ↔ v = w := by
  simp [leafExtends]

theorem leafExtends_nonlit {p q : Prim} (hp : isLit p = false)
    (hq : isLit q = false) : leafExtends p q = true ↔ p = q := by
  cases p <;> cases q <;> simp_all [leafExtends, isLit]

theorem leafExtends_lit_base (v : LitVal) :
    leafExtends (.lit v) (litBase v) = true := by
  cases v <;> simp [leafExtends, litBase]

theorem verdict_prim_prim (p q : Prim) :
    ifExtendsWithoutExtraProps (.prim p) (.prim q) =
      (if leafExtends p q then .MATCH else .REJECTED_EXTRA_PROPERTIES) := by
  have hpa : primAssignable p (.prim q) = leafExtends p q := by
    rw [primAssignable]
  have hts : tsExtends (.prim p) (.prim q) false = leafExtends p q := by
    rw [tsExtends, hpa]
    simp
  rw [ifExtendsWithoutExtraProps, nep_prim_eq, hpa, hts]
  by_cases hl : leafExtends p q = true
  · rw [hl]
    simp
  · simp only [Bool.not_eq_true] at hl
    rw [hl]
    simp

/-- Claim C1: for every pair of object shapes, a candidate field name absent
from the expected shape forces the verdict `REJECTED_EXTRA_PROPERTIES`
(even when a shared field also has an incompatible type — the statement
quantifies over all field lists); in particular every candidate object with
at least one field compared against the empty object shape is rejected with
`REJECTED_EXTRA_PROPERTIES`, and the empty object shape matches itself. -/
theorem claim1_extra_key_dominates :
    (∀ fa fe, (∃ f ∈ fa, hasField fe f.1 = false) →
      ifExtendsWithoutExtraProps (.obj fa) (.obj fe) =
        .REJECTED_EXTRA_PROPERTIES)
    ∧ (∀ f fs, ifExtendsWithoutExtraProps (.obj (f :: fs)) (.obj []) =
        .REJECTED_EXTRA_PROPERTIES)
    ∧ ifExtendsWithoutExtraProps (.obj []) (.obj []) = .MATCH := by
  refine ⟨?_, ?_, ?_⟩
  · intro fa fe hex
    apply verdict_of_ne_one
    rw [extraKey_zero hex false]
    simp
  · intro f fs
    apply verdict_of_ne_one
    rw [extraKey_zero ⟨f, List.mem_cons_self _ _, by simp [hasField]⟩ false]
    simp
  · simp [ifExtendsWithoutExtraProps, noExtraProps, noExtraPropsExp,
          noExtraPropsFields, undefAdjust, tsExtends, tsExtendsSome,
          tsExtendsFields]

theorem claim1_witness :
    ifExtendsWithoutExtraProps (.obj [("a", .prim .string, false)]) (.obj []) =
      .REJECTED_EXTRA_PROPERTIES :=
  claim1_extra_key_dominates.1 [("a", .prim .string, false)] []
    ⟨("a", .prim .string, false), List.mem_cons_self _ _, by simp [hasField]⟩

/-- Claim C2 (counterexample): expected `{a: number}` (required) against the
empty candidate object is *not* `REJECTED_NOT_SUBTYPE` as the claim states —
the source reports the extra-properties outcome (`NoExtraProps` evaluates to
`0` and `IfExtraProps` fires before `IsExtends` is consulted). -/
theorem claim2_counterexample :
    ifExtendsWithoutExtraProps (.obj [])
      (.obj [("a", .prim .number, false)]) ≠ .REJECTED_NOT_SUBTYPE := by
  have hz := missingRequired_zero
    (show lookupField [("a", .prim .number, false)] "a" =
        some (.prim .number, false) by simp [lookupField])
    (show hasField ([] : List (String × Shape × Bool)) "a" = false by
      simp [hasField]) false
  rw [verdict_of_ne_one (by rw [hz]; simp)]
  simp

/-- Claim C2 (amended): a field `K` present in the expected shape but absent
from the candidate is acceptable when optional — dropping all such optional
expected-only fields does not change the verdict, so the overall verdict is
`MATCH` exactly when the remaining fields pass; when the expected field is
required the verdict is `REJECTED_EXTRA_PROPERTIES` (the code reports the
extra-properties outcome here, not `REJECTED_NOT_SUBTYPE`); e.g. the empty
candidate matches expected `{a?: number}`. -/
theorem claim2_missing_expected_field :
    (∀ fa fe k, hasField fa k = false →
      (∀ se' oe', (k, se', oe') ∈ fe → oe' = true) →
      ifExtendsWithoutExtraProps (.obj fa) (.obj (removeField fe k)) =
        ifExtendsWithoutExtraProps (.obj fa) (.obj fe))
    ∧ (∀ fa fe k se, hasField fa k = false →
      lookupField fe k = some (se, false) →
      ifExtendsWithoutExtraProps (.obj fa) (.obj fe) =
        .REJECTED_EXTRA_PROPERTIES)
    ∧ ifExtendsWithoutExtraProps (.obj [])
        (.obj [("a", .prim .number, true)]) = .MATCH := by
  refine ⟨?_, ?_, ?_⟩
  · intro fa fe k hfa hopt
    exact verdict_removeField hfa hopt
  · intro fa fe k se hfa hse
    apply verdict_of_ne_one
    rw [missingRequired_zero hse hfa false]
    simp
  · simp [ifExtendsWithoutExtraProps, noExtraProps, noExtraPropsExp,
          noExtraPropsFields, fieldVal, lookupField, hasField, undefAdjust,
          tsExtends, tsExtendsSome, tsExtendsFields, fieldSub]

theorem claim2_witness :
    ifExtendsWithoutExtraProps (.obj [])
      (.obj [("b", .prim .string, false)]) = .REJECTED_EXTRA_PROPERTIES :=
  claim2_missing_expected_field.2.1 [] [("b", .prim .string, false)] "b"
    (.prim .string) (by simp [hasField]) (by simp [lookupField])

/-- Claim C3 (counterexample): candidate `{c: 4}` against expected
`{c: 2 | 3}` is not `REJECTED_NOT_SUBTYPE` as the claim states; the source
reports the extra-properties outcome for every failure of the exact check. -/
theorem claim3_counterexample :
    ifExtendsWithoutExtraProps
      (.obj [("c", .prim (.lit (.num 4)), false)])
      (.obj [("c", .union [.prim (.lit (.num 2)), .prim (.lit (.num 3))],
        false)]) ≠ .REJECTED_NOT_SUBTYPE := by
  simp [ifExtendsWithoutExtraProps, noExtraProps, noExtraPropsCands,
        noExtraPropsExp, noExtraPropsExps, noExtraPropsFields, fieldVal,
        lookupField, hasField, undefAdjust, zeroComb, oneComb, primAssignable,
        primAssignableList, leafExtends, litBase]

/-- Claim C3 (amended): for a non-union candidate whose shapes contain no
zero-alternative union, the comparison against an expected union is the
disjunction over the expected alternatives (`MATCH` exactly when some
alternative matches); on overall failure the verdict is always
`REJECTED_EXTRA_PROPERTIES` (never `REJECTED_NOT_SUBTYPE`); the `obj7`/`obj8`
fixtures: `{c: 2}` vs `{c: 2 | 3}` is `MATCH` and `{c: 4}` vs `{c: 2 | 3}` is
`REJECTED_EXTRA_PROPERTIES`. -/
theorem claim3_union_expected :
    (∀ C l, shapeKind C ≠ .unionK → nonEmptyUnions C = true →
      nonEmptyUnions (.union l) = true →
      (ifExtendsWithoutExtraProps C (.union l) = .MATCH ↔
        ∃ e ∈ l, ifExtendsWithoutExtraProps C e = .MATCH))
    ∧ (∀ C E, nonEmptyUnions C = true → nonEmptyUnions E = true →
      ifExtendsWithoutExtraProps C E ≠ .MATCH →
      ifExtendsWithoutExtraProps C E = .REJECTED_EXTRA_PROPERTIES)
    ∧ ifExtendsWithoutExtraProps
        (.obj [("c", .prim (.lit (.num 2)), false)])
        (.obj [("c", .union [.prim (.lit (.num 2)), .prim (.lit (.num 3))],
          false)]) = .MATCH
    ∧ ifExtendsWithoutExtraProps
        (.obj [("c", .prim (.lit (.num 4)), false)])
        (.obj [("c", .union [.prim (.lit (.num 2)), .prim (.lit (.num 3))],
          false)]) = .REJECTED_EXTRA_PROPERTIES := by
  refine ⟨?_, ?_, ?_, ?_⟩
  · intro C l hk hC hEU
    obtain ⟨-, hall⟩ := neu_union hEU
    rw [verdict_match_iff hC hEU, nep_nonUnion_union_iff hk l]
    constructor
    · rintro ⟨e, he, hv⟩
      exact ⟨e, he, (verdict_match_iff hC (hall e he)).mpr hv⟩
    · rintro ⟨e, he, hv⟩
      exact ⟨e, he, (verdict_match_iff hC (hall e he)).mp hv⟩
  · intro C E hC hE h
    exact verdict_failure hC hE h
  · simp [ifExtendsWithoutExtraProps, noExtraProps, noExtraPropsCands,
          noExtraPropsExp, noExtraPropsExps, noExtraPropsFields, fieldVal,
          lookupField, hasField, undefAdjust, zeroComb, oneComb,
          primAssignable, primAssignableList, leafExtends, litBase, tsExtends,
          tsExtendsCands, tsExtendsSome, tsExtendsList, tsExtendsFields,
          fieldSub]
  · simp [ifExtendsWithoutExtraProps, noExtraProps, noExtraPropsCands,
          noExtraPropsExp, noExtraPropsExps, noExtraPropsFields, fieldVal,
          lookupField, hasField, undefAdjust, zeroComb, oneComb,
          primAssignable, primAssignableList, leafExtends, litBase]

theorem claim3_witness :
    ifExtendsWithoutExtraProps (.prim (.lit (.num 2)))
        (.union [.prim (.lit (.num 2)), .prim (.lit (.num 3))]) = .MATCH ↔
      ∃ e ∈ [Shape.prim (.lit (.num 2)), Shape.prim (.lit (.num 3))],
        ifExtendsWithoutExtraProps (.prim (.lit (.num 2))) e = .MATCH :=
  claim3_union_expected.1 (.prim (.lit (.num 2)))
    [.prim (.lit (.num 2)), .prim (.lit (.num 3))]
    (by simp [shapeKind])
    (by rw [nonEmptyUnions])
    (by simp [nonEmptyUnions, nonEmptyUnionsList])

/-- Claim C4 (counterexample): expected `{a?: number}` vs candidate
`{a?: string}` is rejected, but with `REJECTED_EXTRA_PROPERTIES`, not
`REJECTED_NOT_SUBTYPE` as the claim states. -/
theorem claim4_counterexample :
    ifExtendsWithoutExtraProps (.obj [("a", .prim .string, true)])
      (.obj [("a", .prim .number, true)]) ≠ .REJECTED_NOT_SUBTYPE := by
  simp [ifExtendsWithoutExtraProps, noExtraProps, noExtraPropsCands,
        noExtraPropsExp, noExtraPropsExps, noExtraPropsFields, fieldVal,
        lookupField, hasField, undefAdjust, zeroComb, oneComb, primAssignable,
        primAssignableList, leafExtends, litBase]

/-- Claim C4 (amended): the optionality reconciliation table — an optional
candidate field against a required expected field is rejected (with the
extra-properties verdict the code actually produces), and in the other
three combinations the comparison recurses into the exact check on the
field shapes (an optional expected field additionally accepting
`undefined`); expected `{a?: number}` vs candidate `{a?: string}` is
rejected as `REJECTED_EXTRA_PROPERTIES` because of the shape mismatch. -/
theorem claim4_optionality_table :
    (∀ fa fe k sa se, lookupField fa k = some (sa, true) →
      lookupField fe k = some (se, false) →
      ifExtendsWithoutExtraProps (.obj fa) (.obj fe) =
        .REJECTED_EXTRA_PROPERTIES)
    ∧ (∀ (k : String) (sa se : Shape) (oa oe : Bool), (oa && !oe) = false →
      noExtraProps (.obj [(k, sa, oa)]) (.obj [(k, se, oe)]) false =
        (if noExtraProps sa se oe = .zero then .zero else .one))
    ∧ ifExtendsWithoutExtraProps (.obj [("a", .prim .string, true)])
        (.obj [("a", .prim .number, true)]) = .REJECTED_EXTRA_PROPERTIES := by
  refine ⟨?_, ?_, ?_⟩
  · intro fa fe k sa se hsa hse
    apply verdict_of_ne_one
    rw [optionalRequired_zero hsa hse false]
    simp
  · intro k sa se oa oe ho
    exact nep_singleField ho
  · simp [ifExtendsWithoutExtraProps, noExtraProps, noExtraPropsCands,
          noExtraPropsExp, noExtraPropsExps, noExtraPropsFields, fieldVal,
          lookupField, hasField, undefAdjust, zeroComb, oneComb,
          primAssignable, primAssignableList, leafExtends, litBase]

theorem claim4_witness :
    ifExtendsWithoutExtraProps (.obj [("a", .prim .number, true)])
      (.obj [("a", .prim .number, false)]) = .REJECTED_EXTRA_PROPERTIES :=
  claim4_optionality_table.1 [("a", .prim .number, true)]
    [("a", .prim .number, false)] "a" (.prim .number) (.prim .number)
    (by simp [lookupField]) (by simp [lookupField])

/-- Claim C5 (counterexample): the zero-alternative candidate union against
the empty object shape is not vacuously `MATCH` as the claim states — the
source's `NoExtraProps` evaluates to `never`, `1 extends never` fails, and
the extra-properties outcome is reported. -/
theorem claim5_counterexample :
    ifExtendsWithoutExtraProps (.union []) (.obj []) ≠ .MATCH := by
  simp [ifExtendsWithoutExtraProps, noExtraProps, noExtraPropsCands]

/-- Claim C5 (amended): for a candidate union with at least one alternative
(and no zero-alternative union anywhere on either side) the comparison is
the conjunction over the candidate alternatives — `MATCH` exactly when every
alternative independently matches the expected shape; a candidate union with
zero alternatives is *not* vacuously `MATCH`: it yields
`REJECTED_EXTRA_PROPERTIES` against every expected shape. -/
theorem claim5_union_candidate :
    (∀ l E, nonEmptyUnions (.union l) = true → nonEmptyUnions E = true →
      (ifExtendsWithoutExtraProps (.union l) E = .MATCH ↔
        ∀ a ∈ l, ifExtendsWithoutExtraProps a E = .MATCH))
    ∧ (∀ E, ifExtendsWithoutExtraProps (.union []) E =
        .REJECTED_EXTRA_PROPERTIES) := by
  constructor
  · intro l E hC hE
    obtain ⟨-, hall⟩ := neu_union hC
    rw [verdict_match_iff hC hE, nep_union_all_iff hC hE]
    constructor
    · intro h a hmem
      exact (verdict_match_iff (hall a hmem) hE).mpr (h a hmem)
    · intro h a hmem
      exact (verdict_match_iff (hall a hmem) hE).mp (h a hmem)
  · intro E
    apply verdict_of_ne_one
    rw [noExtraProps, noExtraPropsCands]
    simp

theorem claim5_witness :
    ifExtendsWithoutExtraProps (.union [.obj []]) (.obj []) = .MATCH ↔
      ∀ a ∈ [Shape.obj []], ifExtendsWithoutExtraProps a (.obj []) = .MATCH :=
  claim5_union_candidate.1 [.obj []] (.obj [])
    (by simp [nonEmptyUnions, nonEmptyUnionsList, nonEmptyUnionsFields])
    (by rw [nonEmptyUnions, nonEmptyUnionsFields])

/-- Claim C6 (counterexample): a candidate array against a non-array object
shape is rejected with `REJECTED_EXTRA_PROPERTIES`, not
`REJECTED_NOT_SUBTYPE` as the claim states. -/
theorem claim6_counterexample :
    ifExtendsWithoutExtraProps (.arr (.prim .number)) (.obj []) ≠
      .REJECTED_NOT_SUBTYPE := by
  simp [ifExtendsWithoutExtraProps, noExtraProps, noExtraPropsExp,
        undefAdjust]

/-- Claim C6 (amended): every cross-kind pair of non-union shapes (array vs
object, array vs primitive, primitive vs object, and the reverse directions)
is rejected, with the verdict `REJECTED_EXTRA_PROPERTIES` in every case —
`REJECTED_NOT_SUBTYPE` is never produced for a kind mismatch. -/
theorem claim6_kind_mismatch :
    ∀ A E, shapeKind A ≠ shapeKind E → shapeKind A ≠ .unionK →
      shapeKind E ≠ .unionK →
      ifExtendsWithoutExtraProps A E = .REJECTED_EXTRA_PROPERTIES := by
  intro A E hne hA hE
  match A, E with
  | .union _, _ => simp [shapeKind] at hA
  | .prim _, .union _ => simp [shapeKind] at hE
  | .obj _, .union _ => simp [shapeKind] at hE
  | .arr _, .union _ => simp [shapeKind] at hE
  | .prim _, .prim _ => simp [shapeKind] at hne
  | .obj _, .obj _ => simp [shapeKind] at hne
  | .arr _, .arr _ => simp [shapeKind] at hne
  | .prim p, .obj fe =>
    apply verdict_of_ne_one
    rw [nep_prim_eq, primAssignable]
    simp
  | .prim p, .arr ee =>
    apply verdict_of_ne_one
    rw [nep_prim_eq, primAssignable]
    simp
  | .obj fa, .prim q =>
    apply verdict_of_ne_one
    rw [nep_obj_eq, noExtraPropsExp_prim]
    simp
  | .obj fa, .arr ee =>
    apply verdict_of_ne_one
    rw [nep_obj_eq, noExtraPropsExp_obj_arr]
    simp
  | .arr ea, .prim q =>
    apply verdict_of_ne_one
    rw [nep_arr_eq, noExtraPropsExp_prim]
    simp
  | .arr ea, .obj fe =>
    apply verdict_of_ne_one
    rw [nep_arr_eq, noExtraPropsExp_arr_obj]
    simp

theorem claim6_witness :
    ifExtendsWithoutExtraProps (.arr (.prim .string)) (.obj [("a", .prim
      .number, false)]) = .REJECTED_EXTRA_PROPERTIES :=
  claim6_kind_mismatch (.arr (.prim .string))
    (.obj [("a", .prim .number, false)]) (by simp [shapeKind])
    (by simp [shapeKind]) (by simp [shapeKind])

/-- Claim C7 (counterexample): reflexivity fails on the zero-alternative
union: comparing it against itself yields `REJECTED_EXTRA_PROPERTIES`, not
`MATCH`. -/
theorem claim7_counterexample :
    ifExtendsWithoutExtraProps (.union []) (.union []) ≠ .MATCH := by
  simp [ifExtendsWithoutExtraProps, noExtraProps, noExtraPropsCands]

/-- Claim C7 (amended): reflexivity — for every shape satisfying the model's
field-name-uniqueness invariant and containing no zero-alternative union,
comparing the shape against itself yields `MATCH`. -/
theorem claim7_reflexivity :
    ∀ S, uniqueKeys S = true → nonEmptyUnions S = true →
      ifExtendsWithoutExtraProps S S = .MATCH := by
  intro S hu hne
  have hone := noExtraProps_self S false hu hne
  rw [ifExtendsWithoutExtraProps, if_pos hone,
      noExtraProps_one_tsExtends hne hne hone, if_pos rfl]

theorem claim7_witness :
    ifExtendsWithoutExtraProps
      (.obj [("a", .prim .number, false),
             ("b", .union [.prim .string, .arr (.prim .boolean)], true)])
      (.obj [("a", .prim .number, false),
             ("b", .union [.prim .string, .arr (.prim .boolean)], true)]) =
      .MATCH :=
  claim7_reflexivity _
    (by simp [uniqueKeys, uniqueKeysFields, uniqueKeysList, hasField])
    (by simp [nonEmptyUnions, nonEmptyUnionsFields, nonEmptyUnionsList])

/-- Claim C8: leaf matching — a literal candidate matches a literal expected
exactly when the values are identical; a non-literal candidate matches a
non-literal expected exactly when the kinds are equal; and a literal
candidate matches the non-literal expected kind of its base type. -/
theorem claim8_leaf_matcher :
    (∀ v w, ifExtendsWithoutExtraProps (.prim (.lit v)) (.prim (.lit w)) =
        .MATCH ↔ v = w)
    ∧ (∀ p q, isLit p = false → isLit q = false →
        (ifExtendsWithoutExtraProps (.prim p) (.prim q) = .MATCH ↔ p = q))
    ∧ (∀ v, ifExtendsWithoutExtraProps (.prim (.lit v))
        (.prim (litBase v)) = .MATCH) := by
  refine ⟨?_, ?_, ?_⟩
  · intro v w
    rw [verdict_prim_prim, ← leafExtends_lit_lit v w]
    by_cases hl : leafExtends (.lit v) (.lit w) = true
    · simp [hl]
    · simp only [Bool.not_eq_true] at hl
      simp [hl]
  · intro p q hp hq
    rw [verdict_prim_prim, ← leafExtends_nonlit hp hq]
    by_cases hl : leafExtends p q = true
    · simp [hl]
    · simp only [Bool.not_eq_true] at hl
      simp [hl]
  · intro v
    rw [verdict_prim_prim, leafExtends_lit_base v, if_pos rfl]

theorem claim8_witness :
    (ifExtendsWithoutExtraProps (.prim .number) (.prim .number) = .MATCH ↔
      Prim.number = Prim.number) :=
  claim8_leaf_matcher.2.1 .number .number (by simp [isLit]) (by simp [isLit])

/-- Claim C10: `createError` returns a passed-in `Error` object itself
unchanged; given a string it returns a new `Error` whose message is exactly
that string; given `undefined` it returns a new `Error` whose message is the
supplied default message. -/
theorem claim10_createError :
    (∀ e d, createError (.err e) d = e)
    ∧ (∀ s d, (createError (.msg s) d).message = s)
    ∧ (∀ d, (createError .undef d).message = d) :=
  ⟨fun _ _ => rfl, fun _ _ => rfl, fun _ => rfl⟩

theorem perm_sizeOf_eq {l l' : List Shape} (h : l.Perm l') :
    sizeOf l = sizeOf l' := by
  induction h with
  | nil => rfl
  | cons x _ ih => simp [ih]
  | swap x y l => simp; omega
  | trans _ _ ih1 ih2 => omega

theorem TV.eq_of_zero_nev_iff {x y : TV} (hz : x = .zero ↔ y = .zero)
    (hn : x = .nev ↔ y = .nev) : x = y := by
  cases x <;> cases y <;> simp_all

theorem TV.eq_of_one_nev_iff {x y : TV} (h1 : x = .one ↔ y = .one)
    (hn : x = .nev ↔ y = .nev) : x = y := by
  cases x <;> cases y <;> simp_all

theorem bool_eq_of_true_iff {a b : Bool} (h : a = true ↔ b = true) : a = b := by
  cases a <;> cases b <;> simp_all

theorem noExtraPropsCands_perm {l l' : List Shape} (h : l.Perm l')
    (E : Shape) (u : Bool) :
    noExtraPropsCands l E u = noExtraPropsCands l' E u := by
  apply TV.eq_of_zero_nev_iff
  · rw [noExtraPropsCands_eq_zero_iff, noExtraPropsCands_eq_zero_iff]
    constructor <;> rintro ⟨a, ha, hv⟩
    · exact ⟨a, h.mem_iff.mp ha, hv⟩
    · exact ⟨a, h.mem_iff.mpr ha, hv⟩
  · rw [noExtraPropsCands_eq_nev_iff, noExtraPropsCands_eq_nev_iff]
    constructor <;> intro hall a ha
    · exact hall a (h.mem_iff.mpr ha)
    · exact hall a (h.mem_iff.mp ha)

theorem noExtraPropsExps_perm (a : Shape) {l l' : List Shape} (h : l.Perm l') :
    noExtraPropsExps a l = noExtraPropsExps a l' := by
  apply TV.eq_of_one_nev_iff
  · rw [noExtraPropsExps_eq_one_iff, noExtraPropsExps_eq_one_iff]
    constructor <;> rintro ⟨e, he, hv⟩
    · exact ⟨e, h.mem_iff.mp he, hv⟩
    · exact ⟨e, h.mem_iff.mpr he, hv⟩
  · rw [noExtraPropsExps_eq_nev_iff, noExtraPropsExps_eq_nev_iff]
    constructor <;> intro hall e he
    · exact hall e (h.mem_iff.mpr he)
    · exact hall e (h.mem_iff.mp he)

theorem tsExtendsCands_perm {l l' : List Shape} (h : l.Perm l')
    (E : Shape) (u : Bool) :
    tsExtendsCands l E u = tsExtendsCands l' E u := by
  apply bool_eq_of_true_iff
  rw [tsExtendsCands_iff, tsExtendsCands_iff]
  constructor <;> intro hall a ha
  · exact hall a (h.mem_iff.mpr ha)
  · exact hall a (h.mem_iff.mp ha)

theorem tsExtendsList_perm (a : Shape) {l l' : List Shape} (h : l.Perm l') :
    tsExtendsList a l = tsExtendsList a l' := by
  apply bool_eq_of_true_iff
  rw [tsExtendsList_iff, tsExtendsList_iff]
  constructor <;> rintro ⟨e, he, hv⟩
  · exact ⟨e, h.mem_iff.mp he, hv⟩
  · exact ⟨e, h.mem_iff.mpr he, hv⟩

theorem primAssignableList_perm (p : Prim) {l l' : List Shape}
    (h : l.Perm l') : primAssignableList p l = primAssignableList p l' := by
  apply bool_eq_of_true_iff
  rw [primAssignableList_iff, primAssignableList_iff]
  constructor <;> rintro ⟨e, he, hv⟩
  · exact ⟨e, h.mem_iff.mp he, hv⟩
  · exact ⟨e, h.mem_iff.mpr he, hv⟩

theorem lookupField_permFields {fa fb : List (String × Shape × Bool)}
    (h : PermFields fa fb) (k : String) :
    (lookupField fa k = none ∧ lookupField fb k = none) ∨
      ∃ sa sb oa, lookupField fa k = some (sa, oa) ∧
        lookupField fb k = some (sb, oa) ∧ PermShape sa sb := by
  match fa, fb, h with
  | [], [], .nil => exact Or.inl ⟨rfl, rfl⟩
  | (k0, s, o) :: rest, (_, s', _) :: rest', .cons hps hrest =>
    rw [lookupField, lookupField]
    by_cases hk : k0 = k
    · rw [if_pos hk, if_pos hk]
      exact Or.inr ⟨s, s', o, rfl, rfl, hps⟩
    · rw [if_neg hk, if_neg hk]
      exact lookupField_permFields hrest k
termination_by sizeOf fa

theorem hasField_permFields {fa fb : List (String × Shape × Bool)}
    (h : PermFields fa fb) (k : String) : hasField fa k = hasField fb k := by
  match fa, fb, h with
  | [], [], .nil => rfl
  | (k0, s, o) :: rest, (_, s', _) :: rest', .cons hps hrest =>
    simp only [hasField, List.any_cons]
    have := hasField_permFields hrest k
    simp only [hasField] at this
    rw [this]
termination_by sizeOf fa

theorem guard_permFields {fa fb fe fe' : List (String × Shape × Bool)}
    (hab : PermFields fa fb) (hef : PermFields fe fe') :
    fa.all (fun f => hasField fe f.1) = fb.all (fun f => hasField fe' f.1) := by
  match fa, fb, hab with
  | [], [], .nil => rfl
  | (k0, s, o) :: rest, (_, s', _) :: rest', .cons hps hrest =>
    simp only [List.all_cons]
    rw [guard_permFields hrest hef, hasField_permFields hef]
termination_by sizeOf fa

mutual
theorem primAssignable_congr (p : Prim) {E E' : Shape} (h : PermShape E E') :
    primAssignable p E = primAssignable p E' := by
  match E, E', h with
  | .prim q, .prim _, .prim _ => rfl
  | .obj fa, .obj fb, .obj _ =>
    rw [primAssignable, primAssignable]
  | .arr e, .arr e', .arr _ =>
    rw [primAssignable, primAssignable]
  | .union l, .union l'', .union hperm hpoint =>
    rw [primAssignable, primAssignable]
    refine Eq.trans (primAssignableList_perm p hperm) ?_
    exact primAssignableList_point p hpoint
termination_by sizeOf E
decreasing_by
  all_goals simp_wf
  all_goals have hq := perm_sizeOf_eq hperm
  all_goals omega

theorem primAssignableList_point (p : Prim) {l l' : List Shape}
    (h : PermList l l') : primAssignableList p l = primAssignableList p l' := by
  match l, l', h with
  | [], [], .nil => rfl
  | x :: xs, y :: ys, .cons hxy hrest =>
    rw [primAssignableList, primAssignableList]
    rw [primAssignable_congr p hxy, primAssignableList_point p hrest]
termination_by sizeOf l
decreasing_by
  all_goals simp_wf
  all_goals omega
end

mutual
theorem noExtraProps_congr {A A' E E' : Shape} (u : Bool) (hA : PermShape A A')
    (hE : PermShape E E') : noExtraProps A E u = noExtraProps A' E' u := by
  match A, A', hA with
  | .prim p, .prim _, .prim _ =>
    rw [noExtraProps, noExtraProps, primAssignable_congr p hE]
  | .obj fa, .obj fb, .obj hf =>
    rw [noExtraProps, noExtraProps,
        noExtraPropsExp_congr (PermShape.obj hf) hE]
  | .arr ea, .arr eb, .arr he =>
    rw [noExtraProps, noExtraProps,
        noExtraPropsExp_congr (PermShape.arr he) hE]
  | .union l, .union l'', .union hperm hpoint =>
    rw [noExtraProps, noExtraProps]
    refine Eq.trans (noExtraPropsCands_perm hperm E u) ?_
    exact noExtraPropsCands_point u hpoint hE
termination_by (sizeOf A + sizeOf E, 1)
decreasing_by
  all_goals simp_wf
  all_goals try have hq := perm_sizeOf_eq hperm
  all_goals first
  | (apply Prod.Lex.right; omega)
  | (apply Prod.Lex.left; omega)

theorem noExtraPropsCands_point (u : Bool) {l l' : List Shape} {E E' : Shape}
    (h : PermList l l') (hE : PermShape E E') :
    noExtraPropsCands l E u = noExtraPropsCands l' E' u := by
  match l, l', h with
  | [], [], .nil =>
    rw [noExtraPropsCands, noExtraPropsCands]
  | x :: xs, y :: ys, .cons hxy hrest =>
    rw [noExtraPropsCands, noExtraPropsCands]
    rw [noExtraProps_congr u hxy hE, noExtraPropsCands_point u hrest hE]
termination_by (sizeOf l + sizeOf E, 0)
decreasing_by
  all_goals simp_wf
  all_goals first
  | (apply Prod.Lex.left; omega)
  | (apply Prod.Lex.right; omega)

theorem noExtraPropsExp_congr {a a' E E' : Shape} (ha : PermShape a a')
    (hE : PermShape E E') : noExtraPropsExp a E = noExtraPropsExp a' E' := by
  match E, E', hE with
  | .prim q, .prim _, .prim _ =>
    rw [noExtraPropsExp_prim, noExtraPropsExp_prim]
  | .arr ee, .arr ee', .arr hee =>
    match a, a', ha with
    | .arr ea, .arr ea', .arr hea =>
      rw [noExtraPropsExp_arr_arr, noExtraPropsExp_arr_arr]
      exact noExtraProps_congr false hea hee
    | .obj _, .obj _, .obj _ =>
      rw [noExtraPropsExp_obj_arr, noExtraPropsExp_obj_arr]
    | .prim p, .prim _, .prim _ =>
      rw [noExtraPropsExp_prim_arr, noExtraPropsExp_prim_arr]
    | .union _, .union _, .union _ _ =>
      rw [noExtraPropsExp_union_arr, noExtraPropsExp_union_arr]
  | .obj fe, .obj fe', .obj hfe =>
    match a, a', ha with
    | .obj fa, .obj fb, .obj hfa =>
      rw [noExtraPropsExp_obj_obj, noExtraPropsExp_obj_obj]
      rw [guard_permFields hfa hfe]
      by_cases hb : fb.all (fun f => hasField fe' f.1) = true
      · rw [if_pos hb, if_pos hb]
        exact noExtraPropsFields_congr hfa hfe
      · rw [if_neg hb, if_neg hb]
    | .arr _, .arr _, .arr _ =>
      rw [noExtraPropsExp_arr_obj, noExtraPropsExp_arr_obj]
    | .prim _, .prim _, .prim _ =>
      rw [noExtraPropsExp_prim_obj, noExtraPropsExp_prim_obj]
    | .union _, .union _, .union _ _ =>
      rw [noExtraPropsExp_union_obj, noExtraPropsExp_union_obj]
  | .union l, .union l'', .union hperm hpoint =>
    rw [noExtraPropsExp_union, noExtraPropsExp_union]
    refine Eq.trans (noExtraPropsExps_perm a hperm) ?_
    exact noExtraPropsExps_point ha hpoint
termination_by (sizeOf a + sizeOf E, 0)
decreasing_by
  all_goals simp_wf
  all_goals try have hq := perm_sizeOf_eq hperm
  all_goals first
  | (apply Prod.Lex.left; omega)
  | (apply Prod.Lex.right; omega)

theorem noExtraPropsExps_point {a a' : Shape} {l l' : List Shape}
    (ha : PermShape a a') (h : PermList l l') :
    noExtraPropsExps a l = noExtraPropsExps a' l' := by
  match l, l', h with
  | [], [], .nil =>
    rw [noExtraPropsExps, noExtraPropsExps]
  | x :: xs, y :: ys, .cons hxy hrest =>
    rw [noExtraPropsExps, noExtraPropsExps]
    rw [noExtraPropsExp_congr ha hxy, noExtraPropsExps_point ha hrest]
termination_by (sizeOf a + sizeOf l, 0)
decreasing_by
  all_goals simp_wf
  all_goals first
  | (apply Prod.Lex.left; omega)
  | (apply Prod.Lex.right; omega)

theorem noExtraPropsFields_congr {fa fb fe fe' : List (String × Shape × Bool)}
    (hab : PermFields fa fb) (hef : PermFields fe fe') :
    noExtraPropsFields fa fe = noExtraPropsFields fb fe' := by
  match fe, fe', hef with
  | [], [], .nil =>
    rw [noExtraPropsFields, noExtraPropsFields]
  | (k, se, oe) :: rest, (_, se', _) :: rest', .cons hse hrest =>
    rw [noExtraPropsFields_cons, noExtraPropsFields_cons]
    have hfv : fieldVal fa (k, se, oe) = fieldVal fb (k, se', oe) := by
      rcases lookupField_permFields hab k with ⟨h1, h2⟩ | ⟨sa, sb, oa, h1, h2, hps⟩
      · simp only [fieldVal, h1, h2]
      · simp only [fieldVal, h1, h2]
        by_cases ho : (oa && !oe) = true
        · rw [if_pos ho, if_pos ho]
        · rw [if_neg ho, if_neg ho]
          exact noExtraProps_congr oe hps hse
    rw [hfv, noExtraPropsFields_congr hab hrest]
termination_by (sizeOf fa + sizeOf fe, 0)
decreasing_by
  all_goals simp_wf
  all_goals try have h1s := sizeOf_lookupField h1
  all_goals first
  | (apply Prod.Lex.left; omega)
  | (apply Prod.Lex.right; omega)
end

mutual
theorem tsExtends_congr {A A' E E' : Shape} (u : Bool) (hA : PermShape A A')
    (hE : PermShape E E') : tsExtends A E u = tsExtends A' E' u := by
  match A, A', hA with
  | .prim p, .prim _, .prim _ =>
    rw [tsExtends, tsExtends, primAssignable_congr p hE]
  | .obj fa, .obj fb, .obj hf =>
    rw [tsExtends, tsExtends, tsExtendsSome_congr (PermShape.obj hf) hE]
  | .arr ea, .arr eb, .arr he =>
    rw [tsExtends, tsExtends, tsExtendsSome_congr (PermShape.arr he) hE]
  | .union l, .union l'', .union hperm hpoint =>
    rw [tsExtends, tsExtends]
    refine Eq.trans (tsExtendsCands_perm hperm E u) ?_
    exact tsExtendsCands_point u hpoint hE
termination_by (sizeOf A + sizeOf E, 1)
decreasing_by
  all_goals simp_wf
  all_goals try have hq := perm_sizeOf_eq hperm
  all_goals first
  | (apply Prod.Lex.right; omega)
  | (apply Prod.Lex.left; omega)

theorem tsExtendsCands_point (u : Bool) {l l' : List Shape} {E E' : Shape}
    (h : PermList l l') (hE : PermShape E E') :
    tsExtendsCands l E u = tsExtendsCands l' E' u := by
  match l, l', h with
  | [], [], .nil =>
    rw [tsExtendsCands, tsExtendsCands]
  | x :: xs, y :: ys, .cons hxy hrest =>
    rw [tsExtendsCands, tsExtendsCands]
    rw [tsExtends_congr u hxy hE, tsExtendsCands_point u hrest hE]
termination_by (sizeOf l + sizeOf E, 0)
decreasing_by
  all_goals simp_wf
  all_goals first
  | (apply Prod.Lex.left; omega)
  | (apply Prod.Lex.right; omega)

theorem tsExtendsSome_congr {a a' E E' : Shape} (ha : PermShape a a')
    (hE : PermShape E E') : tsExtendsSome a E = tsExtendsSome a' E' := by
  match E, E', hE with
  | .prim q, .prim _, .prim _ =>
    rw [tsExtendsSome_prim, tsExtendsSome_prim]
  | .arr ee, .arr ee', .arr hee =>
    match a, a', ha with
    | .arr ea, .arr ea', .arr hea =>
      rw [tsExtendsSome_arr_arr, tsExtendsSome_arr_arr]
      exact tsExtends_congr false hea hee
    | .obj _, .obj _, .obj _ =>
      rw [tsExtendsSome_obj_arr, tsExtendsSome_obj_arr]
    | .prim p, .prim _, .prim _ =>
      rw [tsExtendsSome_prim_arr, tsExtendsSome_prim_arr]
    | .union _, .union _, .union _ _ =>
      rw [tsExtendsSome_union_arr, tsExtendsSome_union_arr]
  | .obj fe, .obj fe', .obj hfe =>
    match a, a', ha with
    | .obj fa, .obj fb, .obj hfa =>
      rw [tsExtendsSome_obj_obj, tsExtendsSome_obj_obj]
      exact tsExtendsFields_congr hfa hfe
    | .arr _, .arr _, .arr _ =>
      rw [tsExtendsSome_arr_obj, tsExtendsSome_arr_obj]
    | .prim _, .prim _, .prim _ =>
      rw [tsExtendsSome_prim_obj, tsExtendsSome_prim_obj]
    | .union _, .union _, .union _ _ =>
      rw [tsExtendsSome_union_obj, tsExtendsSome_union_obj]
  | .union l, .union l'', .union hperm hpoint =>
    rw [tsExtendsSome_union, tsExtendsSome_union]
    refine Eq.trans (tsExtendsList_perm a hperm) ?_
    exact tsExtendsList_point ha hpoint
termination_by (sizeOf a + sizeOf E, 0)
decreasing_by
  all_goals simp_wf
  all_goals try have hq := perm_sizeOf_eq hperm
  all_goals first
  | (apply Prod.Lex.left; omega)
  | (apply Prod.Lex.right; omega)

theorem tsExtendsList_point {a a' : Shape} {l l' : List Shape}
    (ha : PermShape a a') (h : PermList l l') :
    tsExtendsList a l = tsExtendsList a' l' := by
  match l, l', h with
  | [], [], .nil =>
    rw [tsExtendsList, tsExtendsList]
  | x :: xs, y :: ys, .cons hxy hrest =>
    rw [tsExtendsList, tsExtendsList]
    rw [tsExtendsSome_congr ha hxy, tsExtendsList_point ha hrest]
termination_by (sizeOf a + sizeOf l, 0)
decreasing_by
  all_goals simp_wf
  all_goals first
  | (apply Prod.Lex.left; omega)
  | (apply Prod.Lex.right; omega)

theorem tsExtendsFields_congr {fa fb fe fe' : List (String × Shape × Bool)}
    (hab : PermFields fa fb) (hef : PermFields fe fe') :
    tsExtendsFields fa fe = tsExtendsFields fb fe' := by
  match fe, fe', hef with
  | [], [], .nil =>
    rw [tsExtendsFields, tsExtendsFields]
  | (k, se, oe) :: rest, (_, se', _) :: rest', .cons hse hrest =>
    rw [tsExtendsFields_cons, tsExtendsFields_cons]
    have hfv : fieldSub fa (k, se, oe) = fieldSub fb (k, se', oe) := by
      rcases lookupField_permFields hab k with ⟨h1, h2⟩ | ⟨sa, sb, oa, h1, h2, hps⟩
      · simp only [fieldSub, h1, h2]
      · simp only [fieldSub, h1, h2]
        rw [tsExtends_congr oe hps hse]
    rw [hfv, tsExtendsFields_congr hab hrest]
termination_by (sizeOf fa + sizeOf fe, 0)
decreasing_by
  all_goals simp_wf
  all_goals try have h1s := sizeOf_lookupField h1
  all_goals first
  | (apply Prod.Lex.left; omega)
  | (apply Prod.Lex.right; omega)
end

/-- Claim C9: union order invariance — permuting the alternative lists of
union shapes anywhere inside the candidate or the expected shape (the
congruent closure `PermShape`) leaves the verdict unchanged. -/
theorem claim9_union_order_invariance :
    ∀ C C' E E', PermShape C C' → PermShape E E' →
      ifExtendsWithoutExtraProps C E = ifExtendsWithoutExtraProps C' E' := by
  intro C C' E E' hC hE
  rw [ifExtendsWithoutExtraProps, ifExtendsWithoutExtraProps,
      noExtraProps_congr false hC hE, tsExtends_congr false hC hE]

theorem claim9_witness :
    ifExtendsWithoutExtraProps
        (.union [.prim .number, .prim .string]) (.prim .number) =
      ifExtendsWithoutExtraProps
        (.union [.prim .string, .prim .number]) (.prim .number) :=
  claim9_union_order_invariance
    (.union [.prim .number, .prim .string])
    (.union [.prim .string, .prim .number])
    (.prim .number) (.prim .number)
    (PermShape.union
      (List.Perm.swap (Shape.prim Prim.string) (Shape.prim Prim.number) [])
      (PermList.cons (PermShape.prim .string)
        (PermList.cons (PermShape.prim .number) PermList.nil)))
    (PermShape.prim .number)
